import Mathlib

/-!
# haikugo: syllable estimation, line reconciliation and 5-7-5 validation

A shallow embedding of the analysis core of `thornzero/haikugo`
(`internal/analyzer`, `internal/input`, `internal/haiku`) together with
theorems about it.

Modelling conventions.

* A Go `string` is modelled by the list of its code points (`Str`); the model
  covers the strings that are valid UTF-8.  On such strings the byte-wise
  `strings.Contains`, `strings.Split` and `strings.HasSuffix` agree with their
  code-point versions below, because a UTF-8 encoding never occurs inside
  another at a shifted position.  The one place where the source indexes a
  string by byte (`lower[len(lower)-3]` in `CountSyllables`) is modelled on the
  UTF-8 encoding of the string.
* The tables of Go's `unicode` package are not part of the repository.  Their
  ASCII part is written out; their part above ASCII (which code points are
  letters, and the case mappings) is the parameter `Unicode`.  White space
  (`unicode.IsSpace`) is a closed list of 25 code points and is written out.
* Go's `int` is the 64-bit two's-complement integer; arithmetic that can leave
  the range is wrapped with `wrapInt`.  Counters that are bounded by the length
  of a string are natural numbers.
-/

namespace Haikugo

/-! ## Strings and the `unicode` / `strings` library -/

/-- A Go string that is valid UTF-8, as the list of its code points. -/
abbrev Str := List Char

/-- The part of the tables of Go's `unicode` package that lies above ASCII:
the letter category and the simple case mappings.  The functions below consult
it only for code points `≥ 0x80`. -/
structure Unicode where
  letter : Char → Bool
  lower : Char → Char
  upper : Char → Char

/-- Tables that know no letter and no case pair above ASCII. -/
def Unicode.ascii : Unicode := ⟨fun _ => false, fun c => c, fun c => c⟩

/-- The range `A`..`Z`. -/
def isAsciiUpper (c : Char) : Bool := 65 ≤ c.toNat && c.toNat ≤ 90

/-- The range `a`..`z`. -/
def isAsciiLower (c : Char) : Bool := 97 ≤ c.toNat && c.toNat ≤ 122

/-- Go's `unicode.IsLetter`. -/
def unicodeIsLetter (U : Unicode) (c : Char) : Bool :=
  if c.toNat < 128 then isAsciiUpper c || isAsciiLower c else U.letter c

/-- Go's `unicode.ToLower`. -/
def unicodeToLower (U : Unicode) (c : Char) : Char :=
  if c.toNat < 128 then (if isAsciiUpper c then Char.ofNat (c.toNat + 32) else c)
  else U.lower c

/-- Go's `unicode.ToUpper`. -/
def unicodeToUpper (U : Unicode) (c : Char) : Char :=
  if c.toNat < 128 then (if isAsciiLower c then Char.ofNat (c.toNat - 32) else c)
  else U.upper c

/-- Go's `unicode.IsSpace`: the code points with the White_Space property. -/
def unicodeIsSpace (c : Char) : Bool :=
  (9 ≤ c.toNat && c.toNat ≤ 13) || c.toNat == 32 || c.toNat == 0x85 || c.toNat == 0xA0
    || c.toNat == 0x1680 || (0x2000 ≤ c.toNat && c.toNat ≤ 0x200A)
    || c.toNat == 0x2028 || c.toNat == 0x2029 || c.toNat == 0x202F
    || c.toNat == 0x205F || c.toNat == 0x3000

/-- Go's `strings.ToLower`: every code point is mapped through `unicode.ToLower`. -/
def toLower (U : Unicode) (s : Str) : Str := s.map (unicodeToLower U)

/-- Go's `strings.ToUpper`. -/
def toUpper (U : Unicode) (s : Str) : Str := s.map (unicodeToUpper U)

/-- Go's `strings.TrimSpace`: leading and trailing white space removed. -/
def trimSpace (s : Str) : Str :=
  ((s.dropWhile unicodeIsSpace).reverse.dropWhile unicodeIsSpace).reverse

/-- Go's `strings.HasSuffix`. -/
def hasSuffix (s suf : Str) : Bool := suf.reverse.isPrefixOf s.reverse

/-- Go's `strings.Contains`: `sub` occurs in `s` as a contiguous substring. -/
def contains : Str → Str → Bool
  | [], sub => sub.isEmpty
  | c :: cs, sub => sub.isPrefixOf (c :: cs) || contains cs sub

/-- The loop of `strings.Split` for a non-empty separator: `skip` counts the
code points of a separator just matched that are still to be passed over, and
`cur` is the segment read so far. -/
def splitLoop (sep : Str) : Str → Nat → Str → List Str
  | [], _, cur => [cur]
  | _ :: cs, skip + 1, cur => splitLoop sep cs skip cur
  | c :: cs, 0, cur =>
    if sep.isPrefixOf (c :: cs) then cur :: splitLoop sep cs (sep.length - 1) []
    else splitLoop sep cs 0 (cur ++ [c])

/-- Go's `strings.Split(s, sep)`: with an empty separator the string is
exploded into its code points, otherwise it is cut at every occurrence of the
separator, scanning from the left. -/
def split (s sep : Str) : List Str :=
  if sep.isEmpty then s.map (fun c => [c]) else splitLoop sep s 0 []

/-- The UTF-8 encoding of one code point, as bytes. -/
def utf8EncodeRune (c : Char) : List Nat :=
  if c.toNat < 0x80 then [c.toNat]
  else if c.toNat < 0x800 then [0xC0 + c.toNat / 64, 0x80 + c.toNat % 64]
  else if c.toNat < 0x10000 then
    [0xE0 + c.toNat / 4096, 0x80 + (c.toNat / 64) % 64, 0x80 + c.toNat % 64]
  else
    [0xF0 + c.toNat / 262144, 0x80 + (c.toNat / 4096) % 64, 0x80 + (c.toNat / 64) % 64,
      0x80 + c.toNat % 64]

/-- The bytes of a string. -/
def utf8Bytes (s : Str) : List Nat := s.flatMap utf8EncodeRune

/-! ## `internal/analyzer/syllables.go` -/

/-- The map `exceptionSyllables`: irregular words and their syllable counts. -/
def exceptionSyllables : List (Str × Nat) :=
  [("the".toList, 1), ("are".toList, 1), ("hour".toList, 1), ("our".toList, 1),
   ("once".toList, 1), ("ones".toList, 1), ("fire".toList, 1), ("fired".toList, 1),
   ("science".toList, 2), ("poem".toList, 2), ("poems".toList, 2), ("every".toList, 2),
   ("family".toList, 2), ("camera".toList, 3), ("business".toList, 2),
   ("again".toList, 2), ("against".toList, 2), ("people".toList, 2), ("does".toList, 1),
   ("done".toList, 1), ("gone".toList, 1), ("one".toList, 1), ("two".toList, 1),
   ("three".toList, 1), ("four".toList, 1), ("five".toList, 1), ("eight".toList, 1),
   ("twelve".toList, 1), ("world".toList, 1), ("apple".toList, 2),
   ("chocolate".toList, 3), ("table".toList, 2), ("simple".toList, 2),
   ("little".toList, 2), ("middle".toList, 2), ("pickle".toList, 2),
   ("creation".toList, 3), ("reaction".toList, 3)]

/-- The character class of `wordRe`: ASCII letters and the apostrophe. -/
def isWordChar (c : Char) : Bool := isAsciiUpper c || isAsciiLower c || c.toNat == 39

/-- The scan of `wordRe.FindAllString(s, -1)` for the pattern of `wordRe`, one
or more characters of the class: leftmost, greedy, non-overlapping matches.
`cur` is the match being read. -/
def findAllWords : Str → Str → List Str
  | [], cur => if cur.isEmpty then [] else [cur]
  | c :: cs, cur =>
    if isWordChar c then findAllWords cs (cur ++ [c])
    else if cur.isEmpty then findAllWords cs []
    else cur :: findAllWords cs []

/-- The function `ExtractWords`. -/
def ExtractWords (s : Str) : List Str := findAllWords s []

/-- The function `isLetter`: a letter or an apostrophe. -/
def isLetter (U : Unicode) (r : Char) : Bool := unicodeIsLetter U r || r.toNat == 39

/-- The closure `vowels` of `CountSyllables`: membership in `aeiouy`. -/
def vowels (r : Char) : Bool := "aeiouy".toList.contains r

/-- The vowel-group loop of `CountSyllables`, with its two variables. -/
def countVowelGroups : Str → Bool → Nat → Nat
  | [], _, count => count
  | ch :: rest, prevV, count =>
    countVowelGroups rest (vowels ch) (if vowels ch && !prevV then count + 1 else count)

/-- The two stripping loops of `CountSyllables`: the slice `w[start:end]`. -/
def stripNonLetters (U : Unicode) (w : Str) : Str :=
  (((w.dropWhile (fun c => !isLetter U c)).reverse).dropWhile (fun c => !isLetter U c)).reverse

/-- The function `CountSyllables`. -/
def CountSyllables (U : Unicode) (word : Str) : Nat :=
  if word.isEmpty then 0
  else
    match exceptionSyllables.lookup (toLower U word) with
    | some v => v
    | none =>
      let r := stripNonLetters U word
      if r.isEmpty then 0
      else
        let lower := toLower U r
        let count := countVowelGroups lower false 0
        let count :=
          if hasSuffix lower "e".toList && !hasSuffix lower "le".toList && count > 1
          then count - 1 else count
        let count :=
          if hasSuffix lower "le".toList && (utf8Bytes lower).length > 2 then
            if !vowels (Char.ofNat ((utf8Bytes lower).getD ((utf8Bytes lower).length - 3) 0))
            then count + 1 else count
          else count
        if count < 1 then 1 else count

/-- The function `CountLineSyllables`. -/
def CountLineSyllables (U : Unicode) (line : Str) : Nat :=
  ((ExtractWords line).map (fun word => CountSyllables U (toLower U word))).sum

/-! ## `internal/haiku/haiku.go` -/

/-- The struct `Haiku`. -/
structure Haiku where
  Lines : List Str
deriving DecidableEq

/-- The struct `Metrics`.  The two `float64` fields hold quotients of two
counters; they are modelled by the exact quotient. -/
structure Metrics where
  Lines : List Str
  LineSyllables : List Int
  LineWords : List Int
  TotalSyllables : Int
  TotalWords : Int
  UniqueWords : Int
  LexicalDensity : ℚ
  AvgWordLen : ℚ
  HasKireji : Bool
  KirejiHits : List Str
  SeasonWords : List Str
  Valid575 : Bool
  Tolerance : Int
deriving DecidableEq

/-- The function `NewHaiku`. -/
def NewHaiku (lines : List Str) : Haiku := ⟨lines⟩

/-- The method `Haiku.IsValid`. -/
def Haiku.IsValid (h : Haiku) : Bool := h.Lines.length == 3

/-- The loop of `Haiku.Text`: `i > 0` is recorded by `first = false`. -/
def textLoop : List Str → Bool → Str → Str
  | [], _, result => result
  | line :: rest, first, result =>
    textLoop rest false ((if first then result else result ++ [Char.ofNat 10]) ++ line)

/-- The method `Haiku.Text`. -/
def Haiku.Text (h : Haiku) : Str := textLoop h.Lines true []

/-! ## `internal/analyzer/kireji.go`, `internal/analyzer/kigo.go` -/

/-- Byte-wise comparison of two strings, the order of `sort.Strings`; on valid
UTF-8 it is the lexicographic order of the code points. -/
def strLt : Str → Str → Bool
  | [], [] => false
  | [], _ :: _ => true
  | _ :: _, [] => false
  | a :: as, b :: bs => a.toNat < b.toNat || (a == b && strLt as bs)

/-- Insertion of one string into a sorted list. -/
def insertSorted (x : Str) : List Str → List Str
  | [] => [x]
  | y :: ys => if strLt y x then y :: insertSorted x ys else x :: y :: ys

/-- Go's `sort.Strings`. -/
def sortStrings : List Str → List Str
  | [] => []
  | x :: xs => insertSorted x (sortStrings xs)

/-- The deduplication loop of `DetectKireji`: `seen` is the key set of the map
and `result` the slice built so far. -/
def dedupLoop : List Str → List Str → List Str → List Str
  | [], _, result => result
  | hit :: rest, seen, result =>
    if seen.contains hit then dedupLoop rest seen result
    else dedupLoop rest (hit :: seen) (result ++ [hit])

/-- The initial value of the variable `kirejiMarkers`. -/
def kirejiMarkers : List Str :=
  ["—".toList, "–".toList, "-".toList, "...".toList, "…".toList, ":".toList, ";".toList,
   "!".toList, "?".toList, "ya".toList, "kana".toList, "keri".toList]

/-- The initial value of the variable `kigo`. -/
def kigo : List Str :=
  ["spring".toList, "blossom".toList, "cherry".toList, "plum".toList, "thaw".toList,
   "sprout".toList, "bloom".toList, "nest".toList, "robin".toList, "tulip".toList,
   "daffodil".toList, "crocus".toList, "easter".toList, "rain".toList, "shower".toList,
   "summer".toList, "cicada".toList, "firefly".toList, "thunder".toList,
   "lightning".toList, "monsoon".toList, "heat".toList, "sweat".toList, "beach".toList,
   "vacation".toList, "pool".toList, "sun".toList, "sunlight".toList, "bright".toList,
   "autumn".toList, "fall".toList, "harvest".toList, "maple".toList, "leaf".toList,
   "leaves".toList, "cricket".toList, "apple".toList, "pumpkin".toList, "orange".toList,
   "golden".toList, "acorn".toList, "migration".toList, "geese".toList, "cool".toList,
   "winter".toList, "snow".toList, "frost".toList, "ice".toList, "blizzard".toList,
   "solstice".toList, "cold".toList, "freeze".toList, "icicle".toList, "mittens".toList,
   "scarf".toList, "fireplace".toList, "bare".toList, "gray".toList, "grey".toList,
   "moon".toList, "full moon".toList, "new moon".toList, "crescent".toList,
   "stars".toList, "dew".toList, "mist".toList, "fog".toList, "wind".toList,
   "breeze".toList, "cloud".toList, "sky".toList, "earth".toList, "mountain".toList,
   "river".toList, "lake".toList]

/-- The two package-level marker lists, which the add operations extend. -/
structure Markers where
  kirejiMarkers : List Str
  kigo : List Str

/-- The marker lists as the package initialises them. -/
def initialMarkers : Markers := ⟨kirejiMarkers, kigo⟩

/-- The function `DetectKireji`, reading the current marker list. -/
def DetectKireji (U : Unicode) (M : Markers) (text : Str) : Bool × List Str :=
  let lower := toLower U text
  let hits := M.kirejiMarkers.filter (fun marker => contains lower marker)
  if hits.length > 0 then (true, sortStrings (dedupLoop hits [] []))
  else (false, [])

/-- The function `AddKirejiMarker`. -/
def AddKirejiMarker (M : Markers) (marker : Str) : Markers :=
  if M.kirejiMarkers.any (fun existing => existing == marker) then M
  else { M with kirejiMarkers := M.kirejiMarkers ++ [marker] }

/-- The function `GetKirejiMarkers`. -/
def GetKirejiMarkers (M : Markers) : List Str := M.kirejiMarkers

/-- The function `DetectSeasonWords`, reading the current word list.  The keys
of the map `found` are listed in the order of their first insertion; the sort
that follows makes the result independent of that order. -/
def DetectSeasonWords (U : Unicode) (M : Markers) (text : Str) : List Str :=
  let lower := toLower U text
  let found := dedupLoop (M.kigo.filter (fun seasonWord => contains lower seasonWord)) [] []
  if found.length == 0 then [] else sortStrings found

/-- The function `AddSeasonWord`. -/
def AddSeasonWord (U : Unicode) (M : Markers) (word : Str) : Markers :=
  if M.kigo.any (fun existing => existing == toLower U word) then M
  else { M with kigo := M.kigo ++ [toLower U word] }

/-- The function `GetSeasonWords`. -/
def GetSeasonWords (M : Markers) : List Str := M.kigo

/-- The function `HasSeasonWord`. -/
def HasSeasonWord (U : Unicode) (M : Markers) (text : Str) : Bool :=
  (DetectSeasonWords U M text).length > 0

/-! ## `internal/analyzer/analyzer.go` -/

/-- The least value of Go's `int`. -/
def minInt : Int := -9223372036854775808

/-- The greatest value of Go's `int`. -/
def maxInt : Int := 9223372036854775807

/-- Reduction of an integer to the 64-bit two's-complement range. -/
def wrapInt (x : Int) : Int := (x + 9223372036854775808) % 18446744073709551616 - 9223372036854775808

/-- The function `abs`; the negation is the machine negation. -/
def abs (x : Int) : Int := if x < 0 then wrapInt (-x) else x

/-- The struct `Analyzer`. -/
structure Analyzer where
  tolerance : Int
deriving DecidableEq

/-- The function `New` of package `analyzer`. -/
def New (tolerance : Int) : Analyzer := ⟨tolerance⟩

/-- The method `SetTolerance`. -/
def Analyzer.SetTolerance (_a : Analyzer) (tolerance : Int) : Analyzer := ⟨tolerance⟩

/-- The method `GetTolerance`. -/
def Analyzer.GetTolerance (a : Analyzer) : Int := a.tolerance

/-- The slice `expected` of `IsValid575`. -/
def expected : List Int := [5, 7, 5]

/-- The method `IsValid575`: the loop over `i = 0, 1, 2` leaves with `false`
at the first deviation above the tolerance. -/
def Analyzer.IsValid575 (a : Analyzer) (syllables : List Int) : Bool :=
  if syllables.length ≠ 3 then false
  else (List.range 3).all (fun i =>
    !(abs (wrapInt (syllables.getD i 0 - expected.getD i 0)) > a.tolerance))

/-- The variables that the loops of `Analyze` update: the two slices of the
metrics, `totalLetters` and the key set of `uniqueWords`. -/
structure Tally where
  lineSyllables : List Int
  lineWords : List Int
  totalLetters : Nat
  uniqueWords : List Str

/-- The inner loop of `Analyze` over the words of one line; `syll` is the
entry `m.LineSyllables[i]`. -/
def wordLoop (U : Unicode) : List Str → Int × Nat × List Str → Int × Nat × List Str
  | [], st => st
  | word :: rest, (syll, letters, uniq) =>
    wordLoop U rest
      (syll + CountSyllables U (toLower U word),
       letters + (toLower U word).length,
       if uniq.contains (toLower U word) then uniq else uniq ++ [toLower U word])

/-- The outer loop of `Analyze` over the lines. -/
def lineLoop (U : Unicode) : List Str → Tally → Tally
  | [], t => t
  | line :: rest, t =>
    let r := wordLoop U (ExtractWords line) (0, t.totalLetters, t.uniqueWords)
    lineLoop U rest
      { lineSyllables := t.lineSyllables ++ [r.1],
        lineWords := t.lineWords ++ [((ExtractWords line).length : Int)],
        totalLetters := r.2.1,
        uniqueWords := r.2.2 }

/-- Go's `strings.Join(lines, " ")`. -/
def joinSpace : List Str → Str
  | [] => []
  | [l] => l
  | l :: rest => l ++ [Char.ofNat 32] ++ joinSpace rest

/-- The method `Analyze`; `none` stands for the `nil` result. -/
def Analyzer.Analyze (U : Unicode) (M : Markers) (a : Analyzer) (h : Haiku) : Option Metrics :=
  if !h.IsValid then none
  else
    let t := lineLoop U h.Lines ⟨[], [], 0, []⟩
    let totalSyllables := t.lineSyllables.getD 0 0 + t.lineSyllables.getD 1 0 + t.lineSyllables.getD 2 0
    let totalWords := t.lineWords.getD 0 0 + t.lineWords.getD 1 0 + t.lineWords.getD 2 0
    let uniqueWords : Int := t.uniqueWords.length
    let fullText := joinSpace h.Lines
    let k := DetectKireji U M fullText
    some {
      Lines := h.Lines
      LineSyllables := t.lineSyllables
      LineWords := t.lineWords
      TotalSyllables := totalSyllables
      TotalWords := totalWords
      UniqueWords := uniqueWords
      LexicalDensity := if totalWords > 0 then (uniqueWords : ℚ) / (totalWords : ℚ) else 0
      AvgWordLen := if totalWords > 0 then (t.totalLetters : ℚ) / (totalWords : ℚ) else 0
      HasKireji := k.1
      KirejiHits := k.2
      SeasonWords := DetectSeasonWords U M fullText
      Valid575 := a.IsValid575 t.lineSyllables
      Tolerance := a.tolerance }

/-! ## `internal/input/parser.go` -/

deriving instance DecidableEq for Except

/-- The struct `Parser`. -/
structure Parser where
  autosplit : Bool
deriving DecidableEq

/-- The loop of `nonEmptyLines`. -/
def nonEmptyLinesLoop : List Str → List Str → List Str
  | [], result => result
  | line :: rest, result =>
    if trimSpace line ≠ [] then nonEmptyLinesLoop rest (result ++ [trimSpace line])
    else nonEmptyLinesLoop rest result

/-- The function `nonEmptyLines`. -/
def nonEmptyLines (text : Str) : List Str :=
  nonEmptyLinesLoop (split text [Char.ofNat 10]) []

/-- The function `splitAndTrim`. -/
def splitAndTrim (text separator : Str) : List Str :=
  (split text separator).map trimSpace

/-- The loop of `filterNonEmpty`. -/
def filterNonEmptyLoop : List Str → List Str → List Str
  | [], result => result
  | item :: rest, result =>
    if trimSpace item ≠ [] then filterNonEmptyLoop rest (result ++ [trimSpace item])
    else filterNonEmptyLoop rest result

/-- The function `filterNonEmpty`. -/
def filterNonEmpty (input : List Str) : List Str := filterNonEmptyLoop input []

/-- The slice `separators` of `prepareLines`, in its order. -/
def separators : List Str :=
  [" / ".toList, "/".toList, " | ".toList, " |".toList, "| ".toList, " | ".toList,
   " — ".toList, " – ".toList]

/-- The character class of the punctuation pattern of `prepareLines`:
full stop, `!`, `?`, `;`, `:`, em dash, en dash, ellipsis. -/
def isMajorPunct (c : Char) : Bool :=
  c.toNat == 46 || c.toNat == 33 || c.toNat == 63 || c.toNat == 59 || c.toNat == 58
    || c.toNat == 0x2014 || c.toNat == 0x2013 || c.toNat == 0x2026

/-- The scan of `Regexp.Split(s, -1)` for a pattern that matches the non-empty
runs of the class: the text before each match is a piece, and so is the text
after the last match.  `inRun` tells that the previous code point belongs to a
match; `cur` is the piece being read. -/
def regexpSplitLoop : Str → Bool → Str → List Str
  | [], _, cur => [cur]
  | c :: cs, inRun, cur =>
    if isMajorPunct c then
      (if inRun then regexpSplitLoop cs true [] else cur :: regexpSplitLoop cs true [])
    else regexpSplitLoop cs false (cur ++ [c])

/-- Go's `Regexp.Split(s, -1)` for the punctuation pattern. -/
def regexpSplit (s : Str) : List Str :=
  if s.isEmpty then [[]] else regexpSplitLoop s false []

/-- The loop over `separators` in `prepareLines`; `none` when the loop ends
without returning. -/
def separatorLoop (trimmed : Str) : List Str → Option (List Str × Str)
  | [] => none
  | sep :: rest =>
    if contains trimmed sep then
      if (splitAndTrim trimmed sep).length == 3 then
        some (splitAndTrim trimmed sep, "autosplit:".toList ++ sep)
      else separatorLoop trimmed rest
    else separatorLoop trimmed rest

/-- The method `prepareLines`: the lines and the tag of the strategy. -/
def Parser.prepareLines (p : Parser) (text : Str) : List Str × Str :=
  if (nonEmptyLines (trimSpace text)).length ≥ 3 then
    ((nonEmptyLines (trimSpace text)).take 3, "multiline".toList)
  else if !p.autosplit then (nonEmptyLines (trimSpace text), "raw".toList)
  else
    match separatorLoop (trimSpace text) separators with
    | some r => r
    | none =>
      if (filterNonEmpty (regexpSplit (trimSpace text))).length ≥ 3 then
        ((filterNonEmpty (regexpSplit (trimSpace text))).take 3, "autosplit:punct".toList)
      else (nonEmptyLines (trimSpace text), "raw".toList)

/-- The error value of `ParseFromString`: the message that `fmt.Errorf`
formats from the line count and the tag. -/
def lineCountError (count : Nat) (source : Str) : Str :=
  "haiku must have exactly 3 lines, got ".toList ++ Nat.toDigits 10 count
    ++ " (source=".toList ++ source ++ ")".toList

/-- The method `ParseFromString`. -/
def Parser.ParseFromString (p : Parser) (text : Str) : Except Str Haiku :=
  if (p.prepareLines text).1.length ≠ 3 then
    Except.error (lineCountError (p.prepareLines text).1.length (p.prepareLines text).2)
  else Except.ok (NewHaiku (p.prepareLines text).1)

/-! ## Specification-side definitions -/

/-- A string all of whose code points are ASCII. -/
def isAscii (s : Str) : Bool := s.all (fun c => c.toNat < 128)

/-- The poem of the end-to-end example. -/
def oldPond : Haiku :=
  ⟨["an old silent pond".toList, "a frog jumps into the pond".toList,
    "splash silence again".toList]⟩

/-- The statement that `toks` is the left-to-right list of the maximal runs of
word characters of `s`: before each token stands a stretch of separators, the
token is a non-empty stretch of word characters, and what follows it is empty
or begins with a separator. -/
def MaximalRuns : Str → List Str → Prop
  | s, [] => ∀ c ∈ s, isWordChar c = false
  | s, t :: ts =>
    ∃ sep rest, s = sep ++ t ++ rest ∧ (∀ c ∈ sep, isWordChar c = false)
      ∧ t ≠ [] ∧ (∀ c ∈ t, isWordChar c = true)
      ∧ (∀ c ∈ rest.head?, isWordChar c = false) ∧ MaximalRuns rest ts

/-- The priority list of separators as the specification gives it. -/
def separatorPriority : List Str :=
  [" / ".toList, "/".toList, " | ".toList, " |".toList, "| ".toList, " — ".toList,
   " – ".toList]

/-- The statement that `pieces` is `s` split on its maximal runs of major
punctuation: a piece holds no punctuation, it is followed by a non-empty run of
punctuation, and what follows the run is empty or begins with another
character. -/
def SplitOnRuns : Str → List Str → Prop
  | _, [] => False
  | s, [p] => s = p ∧ ∀ c ∈ p, isMajorPunct c = false
  | s, p :: q :: rest =>
    ∃ run tail, s = p ++ run ++ tail ∧ (∀ c ∈ p, isMajorPunct c = false)
      ∧ run ≠ [] ∧ (∀ c ∈ run, isMajorPunct c = true)
      ∧ (∀ c ∈ tail.head?, isMajorPunct c = false) ∧ SplitOnRuns tail (q :: rest)

/-- The lines of a text that are non-empty after trimming, trimmed, in order. -/
def trimmedLines (text : Str) : List Str :=
  ((split text [Char.ofNat 10]).map trimSpace).filter (fun l => !l.isEmpty)

/-- The 5-7-5 rule as the specification words it, over the integers: exactly
three counts, each within the tolerance of its target. -/
def withinTolerance (t : Int) (s : List Int) : Bool :=
  match s with
  | [a, b, c] =>
    decide (((a - 5).natAbs : Int) ≤ t) && decide (((b - 7).natAbs : Int) ≤ t)
      && decide (((c - 5).natAbs : Int) ≤ t)
  | _ => false

/-- The test that `prepareLines` makes on one separator: it occurs in the
trimmed text and cuts it into exactly 3 segments. -/
def splitsInThree (trimmed sep : Str) : Bool :=
  contains trimmed sep && (split trimmed sep).length == 3

/-- The statement that the strings of `ls` occur in `s` as contiguous
stretches, in the order of the list and without overlap: each one is found in
what remains of `s` after the one before it. -/
def OrderedIn : Str → List Str → Prop
  | _, [] => True
  | s, l :: ls => ∃ pre post, s = pre ++ l ++ post ∧ OrderedIn post ls

/-- A line that survives the round trip through `Haiku.Text`: it is not empty,
holds no newline and has no white space at its start or at its end. -/
def IsCleanLine (l : Str) : Prop :=
  l ≠ [] ∧ Char.ofNat 10 ∉ l ∧ (∀ c ∈ l.head?, unicodeIsSpace c = false)
    ∧ (∀ c ∈ l.getLast?, unicodeIsSpace c = false)

/-- Tables that hold, above ASCII, the entry of U+017F (Latin small letter
long s) as Go's `unicode` tables have it: a letter whose upper case is `S` and
whose lower case is itself.  Every other code point above ASCII is left as in
`Unicode.ascii`. -/
def Unicode.longS : Unicode :=
  ⟨fun c => c.toNat == 0x17F, fun c => c,
   fun c => if c.toNat == 0x17F then Char.ofNat 83 else c⟩

/-- The poem of the second end-to-end example. -/
def oldPondDash : Haiku :=
  ⟨["old pond—".toList, "frog jumps in".toList, "splash!".toList]⟩

/-- The lowercased tokens of all the lines of a poem, in order. -/
def allTokens (U : Unicode) (lines : List Str) : List Str :=
  lines.flatMap (fun l => (ExtractWords l).map (toLower U))

/-- The first character of the string is a vowel. -/
def startsWithVowel : Str → Bool
  | [] => false
  | c :: _ => vowels c

/-- The number of maximal runs of vowels of a string, counted at the end of
each run: a vowel that is followed by no vowel closes one run. -/
def vowelRuns : Str → Nat
  | [] => 0
  | c :: rest => (if vowels c && !startsWithVowel rest then 1 else 0) + vowelRuns rest

/-- The word as the heuristic of `CountSyllables` sees it: characters that are
neither letters nor apostrophes removed at both ends, then lowercased. -/
def strippedLower (U : Unicode) (w : Str) : Str := toLower U (stripNonLetters U w)

/-- The condition of the silent-e decrement: the string ends in "e", not in
"le", and has more than one run of vowels. -/
def SilentE (u : Str) : Prop :=
  "e".toList <:+ u ∧ ¬ "le".toList <:+ u ∧ 1 < vowelRuns u

/-- The condition of the consonant-le increment: the string ends in "le", has
more than 2 characters and its third-from-last character is no vowel. -/
def ConsonantLe (u : Str) : Prop :=
  "le".toList <:+ u ∧ 2 < u.length ∧ ∃ c, u.reverse[2]? = some c ∧ vowels c = false

/-! ## Independence from the tables above ASCII -/

theorem isWordChar_lt {c : Char} (h : isWordChar c = true) : c.toNat < 128 := by
  simp [isWordChar, isAsciiUpper, isAsciiLower] at h
  omega

theorem unicodeToLower_ascii (U : Unicode) {c : Char} (h : c.toNat < 128) :
    unicodeToLower U c = unicodeToLower Unicode.ascii c := by
  simp [unicodeToLower, h]

theorem unicodeToLower_lt (U : Unicode) {c : Char} (h : c.toNat < 128) :
    (unicodeToLower U c).toNat < 128 := by
  simp only [unicodeToLower, h, if_true]
  split
  · rename_i hu
    simp [isAsciiUpper] at hu
    have hv : (c.toNat + 32).isValidChar := by
      left; omega
    rw [Char.ofNat, dif_pos hv]
    show c.toNat + 32 < 128
    omega
  · exact h

theorem isLetter_ascii (U : Unicode) {c : Char} (h : c.toNat < 128) :
    isLetter U c = isLetter Unicode.ascii c := by
  simp [isLetter, unicodeIsLetter, h]

theorem toLower_ascii (U : Unicode) {s : Str} (h : isAscii s = true) :
    toLower U s = toLower Unicode.ascii s := by
  simp only [isAscii, List.all_eq_true, decide_eq_true_eq] at h
  exact List.map_congr_left (fun c hc => unicodeToLower_ascii U (h c hc))

theorem isAscii_toLower (U : Unicode) {s : Str} (h : isAscii s = true) :
    isAscii (toLower U s) = true := by
  simp only [isAscii, List.all_eq_true, decide_eq_true_eq, toLower, List.mem_map] at h ⊢
  rintro c ⟨d, hd, rfl⟩
  exact unicodeToLower_lt U (h d hd)

theorem dropWhile_congr_mem {α : Type} (p q : α → Bool) (l : List α)
    (h : ∀ a ∈ l, p a = q a) : l.dropWhile p = l.dropWhile q := by
  induction l with
  | nil => rfl
  | cons a l ih =>
    simp only [List.dropWhile_cons, h a (List.mem_cons_self a l)]
    split
    · exact ih (fun b hb => h b (List.mem_cons_of_mem a hb))
    · rfl

theorem stripNonLetters_ascii (U : Unicode) {w : Str} (h : isAscii w = true) :
    stripNonLetters U w = stripNonLetters Unicode.ascii w := by
  simp only [isAscii, List.all_eq_true, decide_eq_true_eq] at h
  have h1 : w.dropWhile (fun c => !isLetter U c)
      = w.dropWhile (fun c => !isLetter Unicode.ascii c) :=
    dropWhile_congr_mem _ _ w (fun c hc => by simp [isLetter_ascii U (h c hc)])
  unfold stripNonLetters
  rw [h1]
  congr 1
  apply dropWhile_congr_mem
  intro c hc
  have hc2 : c ∈ w := by
    have := List.mem_reverse.mp hc
    exact (List.dropWhile_sublist _).subset this
  simp [isLetter_ascii U (h c hc2)]

theorem isAscii_stripNonLetters (U : Unicode) {w : Str} (h : isAscii w = true) :
    isAscii (stripNonLetters U w) = true := by
  simp only [isAscii, List.all_eq_true, decide_eq_true_eq] at h ⊢
  intro c hc
  apply h
  unfold stripNonLetters at hc
  have h1 := (List.dropWhile_sublist _).subset (List.mem_reverse.mp hc)
  exact (List.dropWhile_sublist _).subset (List.mem_reverse.mp h1)

theorem CountSyllables_ascii (U : Unicode) {w : Str} (h : isAscii w = true) :
    CountSyllables U w = CountSyllables Unicode.ascii w := by
  unfold CountSyllables
  simp only [toLower_ascii U h, stripNonLetters_ascii U h,
    toLower_ascii U (isAscii_stripNonLetters Unicode.ascii h)]


theorem findAllWords_wordChars (s : Str) :
    ∀ cur : Str, (∀ c ∈ cur, isWordChar c = true) →
      ∀ t ∈ findAllWords s cur, ∀ c ∈ t, isWordChar c = true := by
  induction s with
  | nil =>
    intro cur hcur t ht
    simp only [findAllWords] at ht
    split at ht
    · simp at ht
    · simp only [List.mem_singleton] at ht
      subst ht
      exact hcur
  | cons a s ih =>
    intro cur hcur t ht
    simp only [findAllWords] at ht
    split at ht
    · rename_i ha
      refine ih (cur ++ [a]) ?_ t ht
      intro c hc
      rcases List.mem_append.mp hc with h | h
      · exact hcur c h
      · simp only [List.mem_singleton] at h
        subst h
        exact ha
    · split at ht
      · exact ih [] (by simp) t ht
      · rcases List.mem_cons.mp ht with h | h
        · subst h
          exact hcur
        · exact ih [] (by simp) t h

theorem ExtractWords_wordChars (s : Str) :
    ∀ t ∈ ExtractWords s, ∀ c ∈ t, isWordChar c = true :=
  findAllWords_wordChars s [] (by simp)

theorem isAscii_of_wordChars {t : Str} (h : ∀ c ∈ t, isWordChar c = true) :
    isAscii t = true := by
  simp only [isAscii, List.all_eq_true, decide_eq_true_eq]
  exact fun c hc => isWordChar_lt (h c hc)

theorem wordLoop_ascii (U : Unicode) (words : List Str)
    (h : ∀ t ∈ words, isAscii t = true) :
    ∀ st, wordLoop U words st = wordLoop Unicode.ascii words st := by
  induction words with
  | nil => intro st; rfl
  | cons w ws ih =>
    rintro ⟨syll, letters, uniq⟩
    have hw := h w (List.mem_cons_self w ws)
    simp only [wordLoop]
    rw [toLower_ascii U hw, CountSyllables_ascii U (isAscii_toLower Unicode.ascii hw)]
    exact ih (fun t ht => h t (List.mem_cons_of_mem w ht)) _

theorem lineLoop_ascii (U : Unicode) (lines : List Str) :
    ∀ t, lineLoop U lines t = lineLoop Unicode.ascii lines t := by
  induction lines with
  | nil => intro t; rfl
  | cons l ls ih =>
    intro t
    simp only [lineLoop]
    rw [wordLoop_ascii U (ExtractWords l)
      (fun w hw => isAscii_of_wordChars (ExtractWords_wordChars l w hw))]
    exact ih _

/-! ## The end-to-end example -/

theorem Analyze_syllables (U : Unicode) (M : Markers) (a : Analyzer) (h : Haiku)
    (hv : h.IsValid = true) :
    ∃ m, a.Analyze U M h = some m
      ∧ m.LineSyllables = (lineLoop Unicode.ascii h.Lines ⟨[], [], 0, []⟩).lineSyllables
      ∧ m.Valid575
        = a.IsValid575 (lineLoop Unicode.ascii h.Lines ⟨[], [], 0, []⟩).lineSyllables := by
  unfold Analyzer.Analyze
  rw [lineLoop_ascii U]
  simp only [hv, Bool.not_true, Bool.false_eq_true, if_false]
  exact ⟨_, rfl, rfl, rfl⟩

set_option maxRecDepth 100000 in
/-- C1: analysing the poem "an old silent pond / a frog jumps into the pond /
splash silence again" with tolerance 0 returns metrics whose per-line syllable
counts are exactly 5, 7, 5 and whose 5-7-5 validity is true, whatever the
Unicode tables above ASCII and the current marker lists are. -/
theorem analyze_oldPond (U : Unicode) (M : Markers) :
    ∃ m, (New 0).Analyze U M oldPond = some m ∧ m.LineSyllables = [5, 7, 5]
      ∧ m.Valid575 = true := by
  obtain ⟨m, hm, hs, hvalid⟩ := Analyze_syllables U M (New 0) oldPond (by decide)
  refine ⟨m, hm, ?_, ?_⟩
  · rw [hs]
    decide
  · rw [hvalid]
    decide
/-! ## 5-7-5 validity -/

theorem wrapInt_of_inRange {x : Int} (h1 : minInt ≤ x) (h2 : x ≤ maxInt) : wrapInt x = x := by
  unfold wrapInt
  unfold minInt at h1
  unfold maxInt at h2
  omega

theorem abs_of_inRange {x : Int} (h1 : minInt < x) (h2 : x ≤ maxInt) :
    abs x = (x.natAbs : Int) := by
  unfold abs
  unfold minInt at h1
  unfold maxInt at h2
  split
  · rw [wrapInt_of_inRange (by unfold minInt; omega) (by unfold maxInt; omega)]
    omega
  · omega

theorem deviation_of_inRange {x e : Int} (h1 : minInt + 8 ≤ x) (h2 : x ≤ maxInt)
    (he : 0 ≤ e) (he2 : e ≤ 7) :
    abs (wrapInt (x - e)) = ((x - e).natAbs : Int) := by
  unfold minInt at h1
  unfold maxInt at h2
  rw [wrapInt_of_inRange (by unfold minInt; omega) (by unfold maxInt; omega)]
  exact abs_of_inRange (by unfold minInt; omega) (by unfold maxInt; omega)

/-- On lists whose entries stay eight above the least `int`, `IsValid575` is
the 5-7-5 rule of the specification, for every tolerance. -/
theorem IsValid575_eq_withinTolerance (t : Int) (s : List Int)
    (hs : ∀ x ∈ s, minInt + 8 ≤ x ∧ x ≤ maxInt) :
    (New t).IsValid575 s = withinTolerance t s := by
  unfold Analyzer.IsValid575
  match s, hs with
  | [], _ => rfl
  | [_], _ => rfl
  | [_, _], _ => rfl
  | _ :: _ :: _ :: _ :: _, _ => simp [withinTolerance]
  | [a, b, c], hs =>
    have ha := hs a (by simp)
    have hb := hs b (by simp)
    have hc := hs c (by simp)
    have h3 : List.range 3 = [0, 1, 2] := by decide
    simp only [List.length_cons, List.length_nil, ne_eq, not_true_eq_false, if_false, h3,
      List.all_cons, List.all_nil, Bool.and_true, expected, New, withinTolerance,
      List.getD_cons_zero, List.getD_cons_succ, Nat.reduceAdd, zero_add,
      deviation_of_inRange ha.1 ha.2 (by norm_num : (0:Int) ≤ 5) (by norm_num),
      deviation_of_inRange hb.1 hb.2 (by norm_num : (0:Int) ≤ 7) (by norm_num),
      deviation_of_inRange hc.1 hc.2 (by norm_num : (0:Int) ≤ 5) (by norm_num)]
    simp only [← decide_not, not_lt, Bool.and_assoc]

/-- The examples of the specification: `[5,7,5]` is valid at tolerance 0,
`[4,7,5]` is invalid at 0 and valid at 1. -/
theorem IsValid575_examples :
    (New 0).IsValid575 [5, 7, 5] = true ∧ (New 0).IsValid575 [4, 7, 5] = false
      ∧ (New 1).IsValid575 [4, 7, 5] = true := by decide

/-- A list whose length is not 3 is invalid for every tolerance. -/
theorem IsValid575_length (t : Int) (s : List Int) (h : s.length ≠ 3) :
    (New t).IsValid575 s = false := by
  simp [Analyzer.IsValid575, h]

/-- C2: the method `IsValid575` departs from the 5-7-5 rule at the edge of the
`int` range.  For the counts `[-9223372036854775803, 7, 5]` and tolerance 0 the
first deviation is `2^63`, above every tolerance, yet the method returns true:
the difference is the least `int`, whose machine negation in `abs` is itself,
a negative number that no tolerance lies below. -/
theorem IsValid575_least_int :
    (New 0).IsValid575 [-9223372036854775803, 7, 5] = true
      ∧ withinTolerance 0 [-9223372036854775803, 7, 5] = false
      ∧ abs (wrapInt (-9223372036854775803 - 5)) = minInt := by decide

/-! ## The syllable estimator -/

theorem lookup_mem {k : Str} {v : Nat} :
    ∀ l : List (Str × Nat), l.lookup k = some v → (k, v) ∈ l := by
  intro l
  induction l with
  | nil => intro h; simp [List.lookup] at h
  | cons p l ih =>
    obtain ⟨a, b⟩ := p
    intro h
    simp only [List.lookup] at h
    split at h
    · rename_i heq
      have hk : k = a := by simpa using heq
      simp only [Option.some.injEq] at h
      subst hk; subst h
      exact List.mem_cons_self _ _
    · exact List.mem_cons_of_mem _ (ih h)

theorem exceptionSyllables_pos {k : Str} {v : Nat}
    (h : exceptionSyllables.lookup k = some v) : 1 ≤ v := by
  have hall : ∀ p ∈ exceptionSyllables, 1 ≤ p.2 := by decide
  exact hall (k, v) (lookup_mem _ h)

theorem clamp_ne_zero (n : Nat) : (if n < 1 then 1 else n) ≠ 0 := by
  split <;> omega

theorem stripNonLetters_eq_nil_iff (U : Unicode) (w : Str) :
    stripNonLetters U w = [] ↔ ∀ c ∈ w, isLetter U c = false := by
  unfold stripNonLetters
  rw [List.reverse_eq_nil_iff, List.dropWhile_eq_nil_iff]
  constructor
  · intro h c hc
    by_contra hne
    have hl : isLetter U c = true := by simpa using hne
    have hd : w.dropWhile (fun c => !isLetter U c) ≠ [] := by
      intro hnil
      have := List.dropWhile_eq_nil_iff.mp hnil c hc
      simp [hl] at this
    obtain ⟨x, rest, hx⟩ := List.exists_cons_of_ne_nil hd
    have hhead : (fun c => !isLetter U c) x = false := by
      have := List.head_dropWhile_not (fun c => !isLetter U c) w hd
      simpa [hx] using this
    have := h x (by rw [hx]; simp)
    simp at hhead
    simp [hhead] at this
  · intro h c hc
    have hc2 : c ∈ w := (List.dropWhile_sublist _).subset (List.mem_reverse.mp hc)
    simp [h c hc2]

/-- C3, as amended: `CountSyllables` returns 0 exactly for the words that have
no letter and no apostrophe and whose lowercase form is not a key of the
exception table, the empty string among them; for every other word it returns
at least 1. -/
theorem CountSyllables_eq_zero_iff (U : Unicode) (w : Str) :
    (CountSyllables U w = 0 ↔
      (exceptionSyllables.lookup (toLower U w) = none ∧ ∀ c ∈ w, isLetter U c = false))
    ∧ (CountSyllables U w ≠ 0 → 1 ≤ CountSyllables U w)
    ∧ CountSyllables U [] = 0 := by
  refine ⟨?_, fun h => Nat.one_le_iff_ne_zero.mpr h, rfl⟩
  unfold CountSyllables
  by_cases hw : w = []
  · subst hw
    simp only [List.isEmpty_nil, if_true, true_iff]
    exact ⟨(by decide : exceptionSyllables.lookup [] = none), by simp⟩
  · have hwe : w.isEmpty = false := by simpa using hw
    simp only [hwe, Bool.false_eq_true, if_false]
    cases hl : exceptionSyllables.lookup (toLower U w) with
    | some v =>
      have := exceptionSyllables_pos hl
      simp only [reduceCtorEq, false_and, iff_false]
      omega
    | none =>
      simp only [true_and]
      rw [← stripNonLetters_eq_nil_iff]
      by_cases hr : stripNonLetters U w = []
      · simp [hr]
      · have hre : (stripNonLetters U w).isEmpty = false := by simpa using hr
        simp only [hre, Bool.false_eq_true, if_false, hr, iff_false]
        exact clamp_ne_zero _

/-- C3, counterexample: the word "123" is not empty and `CountSyllables`
returns 0 for it, whatever the tables above ASCII are. -/
theorem CountSyllables_digits :
    (∀ U : Unicode, CountSyllables U "123".toList = 0) ∧ "123".toList ≠ [] :=
  ⟨fun U => by rw [CountSyllables_ascii U (by decide)]; decide, by decide⟩

/-- C4: for every key of the exception table and every word whose lowercase
form is that key, `CountSyllables` returns the tabled value. -/
theorem CountSyllables_exception (U : Unicode) (k : Str) (v : Nat) (w : Str)
    (hk : (k, v) ∈ exceptionSyllables) (hw : toLower U w = k) :
    CountSyllables U w = v := by
  have hall : ∀ p ∈ exceptionSyllables, exceptionSyllables.lookup p.1 = some p.2 ∧ p.1 ≠ [] := by
    decide
  obtain ⟨hl, hne⟩ := hall (k, v) hk
  have hwne : w.isEmpty = false := by
    cases w with
    | nil => exact absurd (show (k, v).1 = [] from hw.symm) hne
    | cons a w => rfl
  unfold CountSyllables
  simp only [hwne, Bool.false_eq_true, if_false, hw, hl]

/-- C4, witness: "the", "The" and "THE" count 1, "camera" 3, "table" and
"simple" 2, each through its entry of the exception table. -/
theorem CountSyllables_exception_witness :
    CountSyllables Unicode.ascii "the".toList = 1
      ∧ CountSyllables Unicode.ascii "The".toList = 1
      ∧ CountSyllables Unicode.ascii "THE".toList = 1
      ∧ CountSyllables Unicode.ascii "camera".toList = 3
      ∧ CountSyllables Unicode.ascii "table".toList = 2
      ∧ CountSyllables Unicode.ascii "simple".toList = 2 :=
  ⟨CountSyllables_exception Unicode.ascii "the".toList 1 "the".toList (by decide) (by decide),
   CountSyllables_exception Unicode.ascii "the".toList 1 "The".toList (by decide) (by decide),
   CountSyllables_exception Unicode.ascii "the".toList 1 "THE".toList (by decide) (by decide),
   CountSyllables_exception Unicode.ascii "camera".toList 3 "camera".toList (by decide)
     (by decide),
   CountSyllables_exception Unicode.ascii "table".toList 2 "table".toList (by decide)
     (by decide),
   CountSyllables_exception Unicode.ascii "simple".toList 2 "simple".toList (by decide)
     (by decide)⟩

/-! ## The word extractor -/

theorem MaximalRuns_cons_sep {c : Char} (hc : isWordChar c = false) {s : Str} :
    ∀ {toks : List Str}, MaximalRuns s toks → MaximalRuns (c :: s) toks := by
  intro toks h
  cases toks with
  | nil =>
    intro d hd
    rcases List.mem_cons.mp hd with h1 | h1
    · rw [h1]; exact hc
    · exact h d h1
  | cons t ts =>
    obtain ⟨sep, rest, hs, hsep, ht, htw, hrest, hruns⟩ := h
    refine ⟨c :: sep, rest, by simp [hs], ?_, ht, htw, hrest, hruns⟩
    intro d hd
    rcases List.mem_cons.mp hd with h1 | h1
    · rw [h1]; exact hc
    · exact hsep d h1

theorem findAllWords_runs (s : Str) :
    MaximalRuns s (findAllWords s [])
      ∧ ∀ cur : Str, cur ≠ [] → ∃ t rest toks,
          findAllWords s cur = (cur ++ t) :: toks ∧ s = t ++ rest
            ∧ (∀ c ∈ t, isWordChar c = true) ∧ (∀ c ∈ rest.head?, isWordChar c = false)
            ∧ MaximalRuns rest toks := by
  induction s with
  | nil =>
    refine ⟨by simp [findAllWords, MaximalRuns], ?_⟩
    intro cur hcur
    refine ⟨[], [], [], ?_, rfl, by simp, by simp, by simp [MaximalRuns]⟩
    have : cur.isEmpty = false := by simpa using hcur
    simp [findAllWords, this]
  | cons a s ih =>
    obtain ⟨ih1, ih2⟩ := ih
    by_cases ha : isWordChar a = true
    · have key : ∀ cur : Str, ∃ t rest toks,
          findAllWords (a :: s) cur = (cur ++ t) :: toks ∧ a :: s = t ++ rest
            ∧ (∀ c ∈ t, isWordChar c = true) ∧ (∀ c ∈ rest.head?, isWordChar c = false)
            ∧ MaximalRuns rest toks ∧ t ≠ [] := by
        intro cur
        obtain ⟨t, rest, toks, h1, h2, h3, h4, h5⟩ := ih2 (cur ++ [a]) (by simp)
        refine ⟨a :: t, rest, toks, ?_, by simp [h2], ?_, h4, h5, by simp⟩
        · simp only [findAllWords, ha, if_true, h1]
          simp
        · intro c hc
          rcases List.mem_cons.mp hc with h | h
          · rw [h]; exact ha
          · exact h3 c h
      refine ⟨?_, fun cur _ => ?_⟩
      · obtain ⟨t, rest, toks, h1, h2, h3, h4, h5, h6⟩ := key []
        rw [h1]
        exact ⟨[], rest, by simpa using h2, by simp, by simpa using h6, by simpa using h3,
          h4, h5⟩
      · obtain ⟨t, rest, toks, h1, h2, h3, h4, h5, _⟩ := key cur
        exact ⟨t, rest, toks, h1, h2, h3, h4, h5⟩
    · have ha2 : isWordChar a = false := by simpa using ha
      have h1 : MaximalRuns (a :: s) (findAllWords (a :: s) []) := by
        simp only [findAllWords, ha2, Bool.false_eq_true, if_false, List.isEmpty_nil, if_true]
        exact MaximalRuns_cons_sep ha2 ih1
      refine ⟨h1, ?_⟩
      intro cur hcur
      have hce : cur.isEmpty = false := by simpa using hcur
      refine ⟨[], a :: s, findAllWords s [], ?_, rfl, by simp, by simpa using ha2, ?_⟩
      · simp [findAllWords, ha2, hce]
      · exact MaximalRuns_cons_sep ha2 ih1

theorem MaximalRuns_tokens {s : Str} {toks : List Str} (h : MaximalRuns s toks) :
    ∀ t ∈ toks, t ≠ [] ∧ ∀ c ∈ t, isWordChar c = true := by
  induction toks generalizing s with
  | nil => simp
  | cons t ts ih =>
    obtain ⟨sep, rest, _, _, ht, htw, _, hruns⟩ := h
    intro u hu
    rcases List.mem_cons.mp hu with h1 | h1
    · rw [h1]; exact ⟨ht, htw⟩
    · exact ih hruns u h1

theorem findAllWords_flatten (s : Str) :
    ∀ cur : Str, (findAllWords s cur).flatten = cur ++ s.filter isWordChar := by
  induction s with
  | nil =>
    intro cur
    cases cur <;> simp [findAllWords]
  | cons a s ih =>
    intro cur
    by_cases ha : isWordChar a = true
    · simp [findAllWords, ha, ih]
    · have ha2 : isWordChar a = false := by simpa using ha
      cases cur with
      | nil => simp [findAllWords, ha2, ih]
      | cons b cur => simp [findAllWords, ha2, ih]

/-- C5: `ExtractWords` returns the left-to-right list of the maximal runs of
ASCII letters and apostrophes of its input.  Every token is non-empty and made
of such characters only, the tokens concatenated are the input with every other
character deleted, two consecutive tokens are separated in the input by at
least one separator, and the result is empty for the empty string and for every
string without a letter or apostrophe; "123 abc 456" yields the one token
"abc". -/
theorem ExtractWords_maximal_runs (s : Str) :
    MaximalRuns s (ExtractWords s)
      ∧ (∀ t ∈ ExtractWords s, t ≠ [] ∧ ∀ c ∈ t, isWordChar c = true)
      ∧ (ExtractWords s).flatten = s.filter isWordChar
      ∧ ((∀ c ∈ s, isWordChar c = false) → ExtractWords s = [])
      ∧ ExtractWords [] = []
      ∧ ExtractWords "123 abc 456".toList = ["abc".toList] := by
  have h1 : MaximalRuns s (ExtractWords s) := (findAllWords_runs s).1
  have h2 := MaximalRuns_tokens h1
  have h3 : (ExtractWords s).flatten = s.filter isWordChar := by
    simpa using findAllWords_flatten s []
  refine ⟨h1, h2, h3, ?_, rfl, by decide⟩
  intro hs
  have hf : s.filter isWordChar = [] := by
    rw [List.filter_eq_nil_iff]
    intro c hc
    simp [hs c hc]
  rw [hf] at h3
  cases hE : ExtractWords s with
  | nil => rfl
  | cons t ts =>
    exfalso
    rw [hE] at h3 h2
    have := (h2 t (List.mem_cons_self t ts)).1
    simp at h3
    exact this h3.1

/-! ## Trimming and line splitting -/

theorem trimSpace_eq_rdropWhile (s : Str) :
    trimSpace s = List.rdropWhile unicodeIsSpace (s.dropWhile unicodeIsSpace) := rfl

theorem trimSpace_last (s : Str) : ∀ c ∈ (trimSpace s).getLast?, unicodeIsSpace c = false := by
  intro c hc
  by_cases hne : trimSpace s = []
  · rw [hne] at hc; simp at hc
  · rw [List.getLast?_eq_getLast _ hne] at hc
    simp only [Option.mem_def, Option.some.injEq] at hc
    have := List.rdropWhile_last_not unicodeIsSpace (s.dropWhile unicodeIsSpace) hne
    rw [← hc]
    simpa [trimSpace_eq_rdropWhile] using this

theorem trimSpace_head (s : Str) : ∀ c ∈ (trimSpace s).head?, unicodeIsSpace c = false := by
  intro c hc
  obtain ⟨t, ht⟩ := List.rdropWhile_prefix unicodeIsSpace (l := s.dropWhile unicodeIsSpace)
  rw [← trimSpace_eq_rdropWhile] at ht
  cases hts : trimSpace s with
  | nil => rw [hts] at hc; simp at hc
  | cons a r =>
    rw [hts] at hc ht
    simp only [List.head?_cons, Option.mem_def, Option.some.injEq] at hc
    have hne : s.dropWhile unicodeIsSpace ≠ [] := by rw [← ht]; simp
    have h := List.head_dropWhile_not unicodeIsSpace s hne
    have hh : (s.dropWhile unicodeIsSpace).head hne = a := by
      simp [← ht]
    rw [hh] at h
    rw [← hc]
    simpa using h

theorem trimSpace_cons_space {c : Char} (hc : unicodeIsSpace c = true) (l : Str) :
    trimSpace (c :: l) = trimSpace l := by
  simp [trimSpace, List.dropWhile_cons, hc]

theorem trimSpace_concat_space {c : Char} (hc : unicodeIsSpace c = true) (l : Str) :
    trimSpace (l ++ [c]) = trimSpace l := by
  rw [trimSpace_eq_rdropWhile, trimSpace_eq_rdropWhile, List.dropWhile_append]
  split
  · rename_i he
    have : l.dropWhile unicodeIsSpace = [] := by simpa using he
    simp [this, List.dropWhile_cons, hc, List.rdropWhile_nil]
  · exact List.rdropWhile_concat_pos _ _ _ hc

theorem splitLoop_newline_cons (c : Char) (cs cur : Str) :
    splitLoop [Char.ofNat 10] (c :: cs) 0 cur
      = if c = Char.ofNat 10 then cur :: splitLoop [Char.ofNat 10] cs 0 []
        else splitLoop [Char.ofNat 10] cs 0 (cur ++ [c]) := by
  by_cases h : c = Char.ofNat 10
  · subst h
    simp [splitLoop, List.isPrefixOf]
  · have h2 : ¬ Char.ofNat 10 = c := fun e => h e.symm
    simp [splitLoop, List.isPrefixOf, h, h2]

/-- The non-blank trimmed lines of the cut of `s` at newlines, when the first
line starts with the segment `cur` already read. -/
theorem linesFrom_concat_space {c : Char} (hc : unicodeIsSpace c = true) (s : Str) :
    ∀ cur : Str,
      ((splitLoop [Char.ofNat 10] (s ++ [c]) 0 cur).map trimSpace).filter (fun l => !l.isEmpty)
        = ((splitLoop [Char.ofNat 10] s 0 cur).map trimSpace).filter (fun l => !l.isEmpty) := by
  induction s with
  | nil =>
    intro cur
    rw [List.nil_append, splitLoop_newline_cons]
    split
    · have : trimSpace [] = [] := rfl
      simp [splitLoop, this, List.filter_cons]
    · simp [splitLoop, trimSpace_concat_space hc]
  | cons a s ih =>
    intro cur
    rw [List.cons_append, splitLoop_newline_cons, splitLoop_newline_cons]
    split
    · simp only [List.map_cons, List.filter_cons, ih]
    · exact ih _

theorem linesFrom_cons_space {c : Char} (hc : unicodeIsSpace c = true) (s : Str) :
    ∀ cur : Str,
      ((splitLoop [Char.ofNat 10] s 0 (c :: cur)).map trimSpace).filter (fun l => !l.isEmpty)
        = ((splitLoop [Char.ofNat 10] s 0 cur).map trimSpace).filter (fun l => !l.isEmpty) := by
  induction s with
  | nil =>
    intro cur
    simp [splitLoop, trimSpace_cons_space hc]
  | cons a s ih =>
    intro cur
    rw [splitLoop_newline_cons, splitLoop_newline_cons]
    split
    · simp only [List.map_cons, List.filter_cons, trimSpace_cons_space hc]
    · exact ih _

theorem trimmedLines_eq (s : Str) :
    trimmedLines s
      = ((splitLoop [Char.ofNat 10] s 0 []).map trimSpace).filter (fun l => !l.isEmpty) := by
  simp [trimmedLines, split]

theorem trimmedLines_cons_space {c : Char} (hc : unicodeIsSpace c = true) (s : Str) :
    trimmedLines (c :: s) = trimmedLines s := by
  rw [trimmedLines_eq, trimmedLines_eq, splitLoop_newline_cons]
  split
  · have : trimSpace [] = [] := rfl
    simp [this]
  · exact linesFrom_cons_space hc s []

theorem trimmedLines_dropWhile (s : Str) :
    trimmedLines (s.dropWhile unicodeIsSpace) = trimmedLines s := by
  induction s with
  | nil => rfl
  | cons a s ih =>
    rw [List.dropWhile_cons]
    split
    · rename_i ha
      rw [ih, trimmedLines_cons_space ha]
    · rfl

theorem trimmedLines_rdropWhile (s : Str) :
    trimmedLines (List.rdropWhile unicodeIsSpace s) = trimmedLines s := by
  induction s using List.reverseRecOn with
  | nil => rfl
  | append_singleton s a ih =>
    by_cases ha : unicodeIsSpace a = true
    · rw [List.rdropWhile_concat_pos _ _ _ ha, ih, trimmedLines_eq, trimmedLines_eq,
        linesFrom_concat_space ha]
    · rw [List.rdropWhile_concat_neg _ _ _ ha]

/-- Trimming the whole text first does not change its non-blank trimmed
lines. -/
theorem trimmedLines_trimSpace (text : Str) :
    trimmedLines (trimSpace text) = trimmedLines text := by
  rw [trimSpace_eq_rdropWhile, trimmedLines_rdropWhile, trimmedLines_dropWhile]

/-! ## The line reconciler -/

theorem nonEmptyLinesLoop_eq (ls : List Str) :
    ∀ result : List Str, nonEmptyLinesLoop ls result
      = result ++ (ls.map trimSpace).filter (fun l => !l.isEmpty) := by
  induction ls with
  | nil => intro result; simp [nonEmptyLinesLoop]
  | cons l ls ih =>
    intro result
    by_cases h : trimSpace l = []
    · simp [nonEmptyLinesLoop, h, ih]
    · have he : (trimSpace l).isEmpty = false := by simpa using h
      simp [nonEmptyLinesLoop, h, he, ih]

theorem nonEmptyLines_eq (text : Str) : nonEmptyLines text = trimmedLines text := by
  simp [nonEmptyLines, trimmedLines, nonEmptyLinesLoop_eq]

theorem filterNonEmptyLoop_eq (ls : List Str) :
    ∀ result : List Str, filterNonEmptyLoop ls result
      = result ++ (ls.map trimSpace).filter (fun l => !l.isEmpty) := by
  induction ls with
  | nil => intro result; simp [filterNonEmptyLoop]
  | cons l ls ih =>
    intro result
    by_cases h : trimSpace l = []
    · simp [filterNonEmptyLoop, h, ih]
    · have he : (trimSpace l).isEmpty = false := by simpa using h
      simp [filterNonEmptyLoop, h, he, ih]

theorem filterNonEmpty_eq (input : List Str) :
    filterNonEmpty input = (input.map trimSpace).filter (fun l => !l.isEmpty) := by
  simp [filterNonEmpty, filterNonEmptyLoop_eq]

theorem prepareLines_of_three (p : Parser) (text : Str)
    (h : 3 ≤ (trimmedLines (trimSpace text)).length) :
    p.prepareLines text = ((trimmedLines (trimSpace text)).take 3, "multiline".toList) := by
  unfold Parser.prepareLines
  rw [nonEmptyLines_eq]
  simp [h]

theorem prepareLines_of_raw (text : Str)
    (h : (trimmedLines (trimSpace text)).length < 3) :
    (Parser.mk false).prepareLines text = (trimmedLines (trimSpace text), "raw".toList) := by
  unfold Parser.prepareLines
  rw [nonEmptyLines_eq]
  have h2 : ¬ (trimmedLines (trimSpace text)).length ≥ 3 := by omega
  simp [h2]

theorem trimSpace_of_spaces {s : Str} (h : ∀ c ∈ s, unicodeIsSpace c = true) :
    trimSpace s = [] := by
  unfold trimSpace
  have : s.dropWhile unicodeIsSpace = [] := List.dropWhile_eq_nil_iff.mpr h
  simp [this]

/-- C6: when the trimmed text has at least 3 lines that are non-empty after
trimming, `prepareLines` returns, for either value of the autosplit flag, the
first 3 of them, trimmed and in their order, with the tag "multiline", and
`ParseFromString` succeeds with those lines. -/
theorem prepareLines_multiline (p : Parser) (text : Str)
    (h : 3 ≤ (trimmedLines (trimSpace text)).length) :
    p.prepareLines text = ((trimmedLines (trimSpace text)).take 3, "multiline".toList)
      ∧ p.ParseFromString text
        = Except.ok (NewHaiku ((trimmedLines (trimSpace text)).take 3)) := by
  have h1 := prepareLines_of_three p text h
  refine ⟨h1, ?_⟩
  unfold Parser.ParseFromString
  rw [h1]
  have : ((trimmedLines (trimSpace text)).take 3).length = 3 := by
    rw [List.length_take]; omega
  simp [this]

/-- C6, witness: "one\ntwo\nthree\nfour" has four non-blank lines and parses to
the lines "one", "two", "three", with autosplit disabled and enabled. -/
theorem prepareLines_multiline_witness :
    (Parser.mk false).ParseFromString "one\ntwo\nthree\nfour".toList
        = Except.ok (NewHaiku ["one".toList, "two".toList, "three".toList])
      ∧ (Parser.mk true).prepareLines "one\ntwo\nthree\nfour".toList
        = (["one".toList, "two".toList, "three".toList], "multiline".toList) :=
  ⟨(prepareLines_multiline (Parser.mk false) "one\ntwo\nthree\nfour".toList (by decide)).2,
   (prepareLines_multiline (Parser.mk true) "one\ntwo\nthree\nfour".toList (by decide)).1⟩

theorem ParseFromString_of_raw (text : Str)
    (h : (trimmedLines (trimSpace text)).length < 3) :
    (Parser.mk false).ParseFromString text
      = Except.error
          (lineCountError (trimmedLines (trimSpace text)).length "raw".toList) := by
  unfold Parser.ParseFromString
  rw [prepareLines_of_raw text h]
  have : (trimmedLines (trimSpace text)).length ≠ 3 := by omega
  simp [this]

theorem ParseFromString_of_three (p : Parser) (text : Str)
    (h : 3 ≤ (trimmedLines (trimSpace text)).length) :
    p.ParseFromString text
      = Except.ok (NewHaiku ((trimmedLines (trimSpace text)).take 3)) := by
  unfold Parser.ParseFromString
  rw [prepareLines_of_three p text h]
  have : ((trimmedLines (trimSpace text)).take 3).length = 3 := by
    rw [List.length_take]; omega
  simp [this]

/-- C9: with autosplit disabled, `ParseFromString` returns an error exactly
when the input has fewer than 3 lines that are non-empty after trimming;
`prepareLines` then returns those lines, trimmed, with the tag "raw", and the
error is the message formatted from their number and that tag.  An input made
of white space only, the empty one included, is rejected with the count 0. -/
theorem ParseFromString_raw (text : Str) :
    ((∃ e, (Parser.mk false).ParseFromString text = Except.error e)
        ↔ (trimmedLines text).length < 3)
      ∧ ((trimmedLines text).length < 3 →
          (Parser.mk false).prepareLines text = (trimmedLines text, "raw".toList)
          ∧ (Parser.mk false).ParseFromString text
            = Except.error (lineCountError (trimmedLines text).length "raw".toList))
      ∧ ((∀ c ∈ text, unicodeIsSpace c = true) →
          (Parser.mk false).ParseFromString text
            = Except.error "haiku must have exactly 3 lines, got 0 (source=raw)".toList) := by
  have hT := trimmedLines_trimSpace text
  refine ⟨⟨?_, fun h => ⟨_, ParseFromString_of_raw text (by rw [hT]; exact h)⟩⟩, ?_, ?_⟩
  · rintro ⟨e, he⟩
    by_contra hlt
    have h3 : 3 ≤ (trimmedLines (trimSpace text)).length := by rw [hT]; omega
    rw [ParseFromString_of_three (Parser.mk false) text h3] at he
    exact absurd he (by simp)
  · intro h
    have h2 : (trimmedLines (trimSpace text)).length < 3 := by rw [hT]; exact h
    have h3 := prepareLines_of_raw text h2
    have h4 := ParseFromString_of_raw text h2
    rw [hT] at h3 h4
    exact ⟨h3, h4⟩
  · intro hsp
    have ht : trimSpace text = [] := trimSpace_of_spaces hsp
    have hl : trimmedLines (trimSpace text) = [] := by rw [ht]; decide
    rw [ParseFromString_of_raw text (by rw [hl]; decide), hl]
    decide

theorem separatorLoop_cons (trimmed sep : Str) (rest : List Str) :
    separatorLoop trimmed (sep :: rest)
      = if splitsInThree trimmed sep = true then
          some (splitAndTrim trimmed sep, "autosplit:".toList ++ sep)
        else separatorLoop trimmed rest := by
  simp only [separatorLoop, splitsInThree, splitAndTrim, List.length_map, Bool.and_eq_true]
  by_cases h1 : contains trimmed sep = true <;>
    by_cases h2 : ((split trimmed sep).length == 3) = true <;> simp [h1, h2]

theorem separatorLoop_first (trimmed : Str) (pre : List Str) (sep : Str) (post : List Str)
    (hpre : ∀ s ∈ pre, splitsInThree trimmed s = false)
    (hsep : splitsInThree trimmed sep = true) :
    separatorLoop trimmed (pre ++ sep :: post)
      = some (splitAndTrim trimmed sep, "autosplit:".toList ++ sep) := by
  induction pre with
  | nil => simp [separatorLoop_cons, hsep]
  | cons a pre ih =>
    rw [List.cons_append, separatorLoop_cons, hpre a (List.mem_cons_self a pre)]
    simpa using ih (fun s hs => hpre s (List.mem_cons_of_mem a hs))

theorem separatorLoop_none (trimmed : Str) (l : List Str)
    (h : ∀ s ∈ l, splitsInThree trimmed s = false) : separatorLoop trimmed l = none := by
  induction l with
  | nil => rfl
  | cons a l ih =>
    rw [separatorLoop_cons, h a (List.mem_cons_self a l)]
    simpa using ih (fun s hs => h s (List.mem_cons_of_mem a hs))

theorem separatorLoop_repeated (trimmed a b x c d e f : Str) :
    separatorLoop trimmed [a, b, x, c, d, x, e, f]
      = separatorLoop trimmed [a, b, x, c, d, e, f] := by
  simp only [separatorLoop_cons]
  by_cases h : splitsInThree trimmed x = true
  · simp [h]
  · simp [h]

theorem separatorLoop_separators (trimmed : Str) :
    separatorLoop trimmed separators = separatorLoop trimmed separatorPriority :=
  separatorLoop_repeated trimmed _ _ _ _ _ _ _

theorem prepareLines_autosplit (text : Str)
    (h : (trimmedLines (trimSpace text)).length < 3) :
    (Parser.mk true).prepareLines text
      = match separatorLoop (trimSpace text) separatorPriority with
        | some r => r
        | none =>
          if 3 ≤ (((regexpSplit (trimSpace text)).map trimSpace).filter
              (fun l => !l.isEmpty)).length then
            ((((regexpSplit (trimSpace text)).map trimSpace).filter
              (fun l => !l.isEmpty)).take 3, "autosplit:punct".toList)
          else (trimmedLines (trimSpace text), "raw".toList) := by
  unfold Parser.prepareLines
  rw [nonEmptyLines_eq, separatorLoop_separators, filterNonEmpty_eq]
  have h2 : ¬ (trimmedLines (trimSpace text)).length ≥ 3 := by omega
  simp only [h2, if_false, Bool.not_true, Bool.false_eq_true, ge_iff_le]

/-- C7: with autosplit enabled and fewer than 3 non-blank lines, let `sep` be
the first separator of the priority list that occurs in the trimmed text and
cuts it into exactly 3 segments (no separator listed before it does).  Then
`prepareLines` returns the trimmed segments of `sep` with the tag
"autosplit:" followed by `sep`. -/
theorem prepareLines_first_separator (text : Str) (pre : List Str) (sep : Str)
    (post : List Str)
    (hlines : (trimmedLines (trimSpace text)).length < 3)
    (hlist : separatorPriority = pre ++ sep :: post)
    (hpre : ∀ s ∈ pre,
      ¬ (contains (trimSpace text) s = true ∧ (split (trimSpace text) s).length = 3))
    (hsep : contains (trimSpace text) sep = true ∧ (split (trimSpace text) sep).length = 3) :
    (Parser.mk true).prepareLines text
      = ((split (trimSpace text) sep).map trimSpace, "autosplit:".toList ++ sep) := by
  rw [prepareLines_autosplit text hlines, hlist,
    separatorLoop_first (trimSpace text) pre sep post ?_ ?_]
  · rfl
  · intro s hs
    have := hpre s hs
    simpa [splitsInThree] using this
  · simpa [splitsInThree] using hsep

/-- C7, witness: "a/b | c/d | e" is cut in 3 both by "/" and by " | "; the
separator "/" comes first in the list, after " / " which does not occur, and
the result is "a", "b | c", "d | e" with the tag "autosplit:/". -/
theorem prepareLines_first_separator_witness :
    (Parser.mk true).prepareLines "a/b | c/d | e".toList
        = (["a".toList, "b | c".toList, "d | e".toList], "autosplit:/".toList)
      ∧ splitsInThree "a/b | c/d | e".toList " | ".toList = true :=
  ⟨prepareLines_first_separator "a/b | c/d | e".toList [" / ".toList] "/".toList
      [" | ".toList, " |".toList, "| ".toList, " — ".toList, " – ".toList]
      (by decide) (by decide) (by decide) (by decide),
   by decide⟩

/-- C8: the separator strategy of `prepareLines` returns an empty line.  For
"a//b" with autosplit enabled the separator "/" cuts the text into "a", "" and
"b"; the loop trims the segments and keeps the empty one (the multi-line and
the punctuation strategies drop such segments), so the result is the three
lines "a", "", "b" with the tag "autosplit:/" and `ParseFromString` succeeds
with an empty second line. -/
theorem prepareLines_empty_segment :
    (Parser.mk true).prepareLines "a//b".toList
        = (["a".toList, [], "b".toList], "autosplit:/".toList)
      ∧ (Parser.mk true).ParseFromString "a//b".toList
        = Except.ok (NewHaiku ["a".toList, [], "b".toList]) := by decide

/-! ### Splitting on punctuation -/

theorem SplitOnRuns_ne_nil {s : Str} {l : List Str} (h : SplitOnRuns s l) : l ≠ [] := by
  intro hl
  subst hl
  exact h

theorem regexpSplitLoop_runs (s : Str) :
    (∀ cur : Str, (∀ c ∈ cur, isMajorPunct c = false) →
        SplitOnRuns (cur ++ s) (regexpSplitLoop s false cur))
      ∧ SplitOnRuns (s.dropWhile isMajorPunct) (regexpSplitLoop s true []) := by
  induction s with
  | nil =>
    refine ⟨?_, ?_⟩
    · intro cur hcur
      simpa [regexpSplitLoop, SplitOnRuns] using hcur
    · simp [regexpSplitLoop, SplitOnRuns]
  | cons a s ih =>
    obtain ⟨ih1, ih2⟩ := ih
    by_cases ha : isMajorPunct a = true
    · refine ⟨?_, ?_⟩
      · intro cur hcur
        simp only [regexpSplitLoop, ha, if_true, Bool.false_eq_true, if_false]
        obtain ⟨q, rest, hq⟩ := List.exists_cons_of_ne_nil (SplitOnRuns_ne_nil ih2)
        rw [hq] at ih2 ⊢
        refine ⟨a :: s.takeWhile isMajorPunct, s.dropWhile isMajorPunct, ?_, hcur, by simp,
          ?_, ?_, ih2⟩
        · simp [List.takeWhile_append_dropWhile]
        · intro c hc
          rcases List.mem_cons.mp hc with h | h
          · rw [h]; exact ha
          · exact (List.mem_takeWhile_imp h)
        · intro c hc
          have hne : s.dropWhile isMajorPunct ≠ [] := by
            intro hnil; rw [hnil] at hc; simp at hc
          have := List.head_dropWhile_not isMajorPunct s hne
          rw [List.head?_eq_head hne] at hc
          simp only [Option.mem_def, Option.some.injEq] at hc
          rw [← hc]
          simpa using this
      · simpa [regexpSplitLoop, ha] using ih2
    · have ha2 : isMajorPunct a = false := by simpa using ha
      have key : ∀ cur : Str, (∀ c ∈ cur, isMajorPunct c = false) →
          SplitOnRuns (cur ++ a :: s) (regexpSplitLoop (a :: s) false cur) := by
        intro cur hcur
        simp only [regexpSplitLoop, ha2, Bool.false_eq_true, if_false]
        have := ih1 (cur ++ [a]) (by
          intro c hc
          rcases List.mem_append.mp hc with h | h
          · exact hcur c h
          · simp only [List.mem_singleton] at h
            rw [h]; exact ha2)
        simpa using this
      refine ⟨key, ?_⟩
      have := key [] (by simp)
      simpa [regexpSplitLoop, ha2] using this

theorem regexpSplit_runs (s : Str) : SplitOnRuns s (regexpSplit s) := by
  unfold regexpSplit
  cases s with
  | nil => simp [SplitOnRuns]
  | cons a s =>
    simpa using (regexpSplitLoop_runs (a :: s)).1 [] (by simp)

/-- C10: with autosplit enabled, fewer than 3 non-blank lines and no separator
of the priority list cutting the trimmed text into exactly 3, the trimmed text
is split on its maximal runs of major punctuation, the segments are trimmed and
the empty ones dropped; when at least 3 remain `prepareLines` returns the first
3 with the tag "autosplit:punct", otherwise it returns the non-blank lines with
the tag "raw". -/
theorem prepareLines_punct (text : Str)
    (hlines : (trimmedLines (trimSpace text)).length < 3)
    (hsep : ∀ s ∈ separatorPriority,
      ¬ (contains (trimSpace text) s = true ∧ (split (trimSpace text) s).length = 3)) :
    SplitOnRuns (trimSpace text) (regexpSplit (trimSpace text))
      ∧ (Parser.mk true).prepareLines text
        = if 3 ≤ (((regexpSplit (trimSpace text)).map trimSpace).filter
              (fun l => !l.isEmpty)).length then
            ((((regexpSplit (trimSpace text)).map trimSpace).filter
              (fun l => !l.isEmpty)).take 3, "autosplit:punct".toList)
          else (trimmedLines (trimSpace text), "raw".toList) := by
  refine ⟨regexpSplit_runs _, ?_⟩
  rw [prepareLines_autosplit text hlines, separatorLoop_none]
  intro s hs
  have := hsep s hs
  simpa [splitsInThree] using this

/-- C10, witness: "old tree. fallen leaves. quiet pond." has one line and no
listed separator; the punctuation split yields "old tree", "fallen leaves",
"quiet pond" with the tag "autosplit:punct". -/
theorem prepareLines_punct_witness :
    (Parser.mk true).prepareLines "old tree. fallen leaves. quiet pond.".toList
      = (["old tree".toList, "fallen leaves".toList, "quiet pond".toList],
          "autosplit:punct".toList) :=
  (prepareLines_punct "old tree. fallen leaves. quiet pond.".toList (by decide)
    (by decide)).2.trans (by decide)

/-! ### The four strategies -/

theorem separatorLoop_some (trimmed : Str) (l : List Str) (r : List Str × Str)
    (h : separatorLoop trimmed l = some r) :
    ∃ sep ∈ l, splitsInThree trimmed sep = true
      ∧ r = (splitAndTrim trimmed sep, "autosplit:".toList ++ sep) := by
  induction l with
  | nil => simp [separatorLoop] at h
  | cons a l ih =>
    rw [separatorLoop_cons] at h
    split at h
    · rename_i ha
      simp only [Option.some.injEq] at h
      exact ⟨a, List.mem_cons_self a l, ha, h.symm⟩
    · obtain ⟨sep, hmem, hs⟩ := ih h
      exact ⟨sep, List.mem_cons_of_mem a hmem, hs⟩

/-- The result of `prepareLines` is that of one of its four strategies. -/
theorem prepareLines_cases (p : Parser) (text : Str) :
    (3 ≤ (trimmedLines (trimSpace text)).length
        ∧ p.prepareLines text
          = ((trimmedLines (trimSpace text)).take 3, "multiline".toList))
      ∨ ((trimmedLines (trimSpace text)).length < 3
        ∧ p.prepareLines text = (trimmedLines (trimSpace text), "raw".toList))
      ∨ (p.autosplit = true ∧ (trimmedLines (trimSpace text)).length < 3
        ∧ ∃ sep ∈ separatorPriority, splitsInThree (trimSpace text) sep = true
          ∧ p.prepareLines text
            = (splitAndTrim (trimSpace text) sep, "autosplit:".toList ++ sep))
      ∨ (p.autosplit = true ∧ (trimmedLines (trimSpace text)).length < 3
        ∧ 3 ≤ (((regexpSplit (trimSpace text)).map trimSpace).filter
              (fun l => !l.isEmpty)).length
        ∧ p.prepareLines text
          = ((((regexpSplit (trimSpace text)).map trimSpace).filter
              (fun l => !l.isEmpty)).take 3, "autosplit:punct".toList)) := by
  by_cases h3 : 3 ≤ (trimmedLines (trimSpace text)).length
  · exact Or.inl ⟨h3, prepareLines_of_three p text h3⟩
  · have hlt : (trimmedLines (trimSpace text)).length < 3 := by omega
    obtain ⟨b⟩ := p
    cases b with
    | false => exact Or.inr (Or.inl ⟨hlt, prepareLines_of_raw text hlt⟩)
    | true =>
      have hp := prepareLines_autosplit text hlt
      cases hs : separatorLoop (trimSpace text) separatorPriority with
      | some r =>
        rw [hs] at hp
        obtain ⟨sep, hmem, hok, hr⟩ := separatorLoop_some _ _ _ hs
        refine Or.inr (Or.inr (Or.inl ⟨rfl, hlt, sep, hmem, hok, ?_⟩))
        rw [hp, hr]
      | none =>
        rw [hs] at hp
        simp only at hp
        split at hp
        · rename_i hseg
          exact Or.inr (Or.inr (Or.inr ⟨rfl, hlt, hseg, hp⟩))
        · exact Or.inr (Or.inl ⟨hlt, hp⟩)

theorem mem_trimmed_filter {ls : List Str} {l : Str}
    (h : l ∈ (ls.map trimSpace).filter (fun l => !l.isEmpty)) :
    l ≠ [] ∧ ∃ x, l = trimSpace x := by
  rw [List.mem_filter, List.mem_map] at h
  obtain ⟨⟨x, _, hx⟩, hne⟩ := h
  exact ⟨by simpa using hne, x, hx.symm⟩

/-- Every line that `prepareLines` returns, under each strategy and for each
value of the flag, has no white space at its start or at its end. -/
theorem prepareLines_lines_trimmed (p : Parser) (text : Str) :
    ∀ l ∈ (p.prepareLines text).1,
      (∀ c ∈ l.head?, unicodeIsSpace c = false)
        ∧ (∀ c ∈ l.getLast?, unicodeIsSpace c = false) := by
  have key : ∀ l ∈ (p.prepareLines text).1, ∃ x, l = trimSpace x := by
    intro l hl
    rcases prepareLines_cases p text with ⟨_, h⟩ | ⟨_, h⟩ | ⟨_, _, sep, _, _, h⟩ | ⟨_, _, _, h⟩
    · rw [h] at hl
      exact (mem_trimmed_filter (List.mem_of_mem_take hl)).2
    · rw [h] at hl
      exact (mem_trimmed_filter hl).2
    · rw [h] at hl
      obtain ⟨x, _, hx⟩ := List.mem_map.mp hl
      exact ⟨x, hx.symm⟩
    · rw [h] at hl
      exact (mem_trimmed_filter (List.mem_of_mem_take hl)).2
  intro l hl
  obtain ⟨x, rfl⟩ := key l hl
  exact ⟨trimSpace_head x, trimSpace_last x⟩

/-- Under the multi-line, the punctuation and the raw strategy every returned
line is non-empty. -/
theorem prepareLines_lines_nonempty (p : Parser) (text : Str)
    (htag : (p.prepareLines text).2 = "multiline".toList
      ∨ (p.prepareLines text).2 = "autosplit:punct".toList
      ∨ (p.prepareLines text).2 = "raw".toList) :
    ∀ l ∈ (p.prepareLines text).1, l ≠ [] := by
  intro l hl
  rcases prepareLines_cases p text with ⟨_, h⟩ | ⟨_, h⟩ | ⟨_, _, sep, hmem, _, h⟩ | ⟨_, _, _, h⟩
  · rw [h] at hl
    exact (mem_trimmed_filter (List.mem_of_mem_take hl)).1
  · rw [h] at hl
    exact (mem_trimmed_filter hl).1
  · exfalso
    rw [h] at htag
    have hall : ∀ s ∈ separatorPriority,
        ¬ ("autosplit:".toList ++ s = "multiline".toList
          ∨ "autosplit:".toList ++ s = "autosplit:punct".toList
          ∨ "autosplit:".toList ++ s = "raw".toList) := by decide
    exact hall sep hmem htag
  · rw [h] at hl
    exact (mem_trimmed_filter (List.mem_of_mem_take hl)).1

/-! ### The number of lines -/

/-- C11: `prepareLines` never returns more than 3 lines.  It returns exactly 3
lines when its tag is "multiline" or begins with "autosplit:", and fewer than 3
when its tag is "raw"; an error of `ParseFromString` therefore carries the tag
"raw" and a count of 0, 1 or 2. -/
theorem prepareLines_line_count (p : Parser) (text : Str) :
    (p.prepareLines text).1.length ≤ 3
      ∧ ((p.prepareLines text).2 = "multiline".toList
          ∨ "autosplit:".toList.isPrefixOf (p.prepareLines text).2 = true →
          (p.prepareLines text).1.length = 3)
      ∧ ((p.prepareLines text).2 = "raw".toList → (p.prepareLines text).1.length < 3)
      ∧ (∀ e, p.ParseFromString text = Except.error e →
          (p.prepareLines text).2 = "raw".toList ∧ (p.prepareLines text).1.length < 3
            ∧ e = lineCountError (p.prepareLines text).1.length "raw".toList) := by
  have hpre : ∀ s : Str, "autosplit:".toList.isPrefixOf ("autosplit:".toList ++ s) = true := by
    intro s
    simp [List.isPrefixOf]
  have hcases : ((p.prepareLines text).1.length = 3
        ∧ ((p.prepareLines text).2 = "multiline".toList
          ∨ "autosplit:".toList.isPrefixOf (p.prepareLines text).2 = true)
        ∧ (p.prepareLines text).2 ≠ "raw".toList)
      ∨ ((p.prepareLines text).1.length < 3 ∧ (p.prepareLines text).2 = "raw".toList) := by
    rcases prepareLines_cases p text with ⟨h3, h⟩ | ⟨hlt, h⟩ | ⟨_, _, sep, _, hok, h⟩
      | ⟨_, _, hseg, h⟩
    · left
      rw [h]
      refine ⟨by simp only [List.length_take]; omega, Or.inl rfl,
        (by decide : "multiline".toList ≠ "raw".toList)⟩
    · right
      rw [h]
      exact ⟨hlt, rfl⟩
    · left
      rw [h]
      refine ⟨?_, Or.inr (hpre sep), ?_⟩
      · simp only [splitsInThree, Bool.and_eq_true, beq_iff_eq] at hok
        simpa [splitAndTrim] using hok.2
      · intro hraw
        have := congrArg (fun l => l.take 1) hraw
        simp at this
    · left
      rw [h]
      refine ⟨by simp only [List.length_take]; omega,
        Or.inr (by decide : "autosplit:".toList.isPrefixOf "autosplit:punct".toList = true),
        (by decide : "autosplit:punct".toList ≠ "raw".toList)⟩
  have hraw_not : ¬ ("raw".toList = "multiline".toList
      ∨ "autosplit:".toList.isPrefixOf "raw".toList = true) := by decide
  refine ⟨?_, ?_, ?_, ?_⟩
  · rcases hcases with ⟨h, _⟩ | ⟨h, _⟩ <;> omega
  · intro htag
    rcases hcases with ⟨h, _⟩ | ⟨_, h⟩
    · exact h
    · rw [h] at htag
      exact absurd htag hraw_not
  · intro htag
    rcases hcases with ⟨_, _, h⟩ | ⟨h, _⟩
    · exact absurd htag h
    · exact h
  · intro e he
    unfold Parser.ParseFromString at he
    split at he
    · rename_i hne
      rcases hcases with ⟨h, _⟩ | ⟨h, ht⟩
      · exact absurd h hne
      · simp only [Except.error.injEq] at he
        rw [ht] at he
        exact ⟨ht, h, he.symm⟩
    · exact absurd he (by simp)

/-! ### No fabricated content -/

theorem OrderedIn_append_left (a : Str) {s : Str} {ls : List Str} (h : OrderedIn s ls) :
    OrderedIn (a ++ s) ls := by
  cases ls with
  | nil => trivial
  | cons l ls =>
    obtain ⟨pre, post, hs, hrest⟩ := h
    exact ⟨a ++ pre, post, by simp [hs], hrest⟩

theorem OrderedIn_append_right (b : Str) :
    ∀ {ls : List Str} {s : Str}, OrderedIn s ls → OrderedIn (s ++ b) ls := by
  intro ls
  induction ls with
  | nil => intro s _; trivial
  | cons l ls ih =>
    intro s h
    obtain ⟨pre, post, hs, hrest⟩ := h
    exact ⟨pre, post ++ b, by simp [hs], ih hrest⟩

theorem OrderedIn_sublist {l1 l2 : List Str} (hsub : l1.Sublist l2) :
    ∀ {s : Str}, OrderedIn s l2 → OrderedIn s l1 := by
  induction hsub with
  | slnil => intro s h; exact h
  | cons a _ ih =>
    intro s h
    obtain ⟨pre, post, hs, hrest⟩ := h
    rw [hs]
    exact OrderedIn_append_left (pre ++ a) (ih hrest)
  | cons₂ a _ ih =>
    intro s h
    obtain ⟨pre, post, hs, hrest⟩ := h
    exact ⟨pre, post, hs, ih hrest⟩

theorem OrderedIn_map (f : Str → Str) (hf : ∀ l, ∃ a b, l = a ++ f l ++ b) :
    ∀ {ls : List Str} {s : Str}, OrderedIn s ls → OrderedIn s (ls.map f) := by
  intro ls
  induction ls with
  | nil => intro s _; trivial
  | cons l ls ih =>
    intro s h
    obtain ⟨pre, post, hs, hrest⟩ := h
    obtain ⟨a, b, hl⟩ := hf l
    refine ⟨pre ++ a, b ++ post, ?_, OrderedIn_append_left b (ih hrest)⟩
    rw [hs]
    nth_rewrite 1 [hl]
    simp

theorem OrderedIn_mem {ls : List Str} :
    ∀ {s : Str}, OrderedIn s ls → ∀ l ∈ ls, l <:+: s := by
  induction ls with
  | nil => intro s _ l hl; simp at hl
  | cons a ls ih =>
    intro s h l hl
    obtain ⟨pre, post, hs, hrest⟩ := h
    rcases List.mem_cons.mp hl with h1 | h1
    · rw [h1, hs]
      exact ⟨pre, post, rfl⟩
    · obtain ⟨u, v, huv⟩ := ih hrest l h1
      exact ⟨pre ++ a ++ u, v, by rw [hs, ← huv]; simp⟩

theorem trimSpace_occurs (x : Str) : ∃ a b, x = a ++ trimSpace x ++ b := by
  obtain ⟨a, ha⟩ := List.dropWhile_suffix unicodeIsSpace (l := x)
  obtain ⟨b, hb⟩ := List.rdropWhile_prefix unicodeIsSpace (l := x.dropWhile unicodeIsSpace)
  refine ⟨a, b, ?_⟩
  rw [trimSpace_eq_rdropWhile, List.append_assoc, hb, ha]

theorem splitLoop_ordered (sep : Str) (s : Str) :
    ∀ (skip : Nat) (cur : Str), ∃ l0 ls post,
      splitLoop sep s skip cur = (cur ++ l0) :: ls ∧ s.drop skip = l0 ++ post
        ∧ OrderedIn post ls := by
  induction s with
  | nil =>
    intro skip cur
    exact ⟨[], [], [], by simp [splitLoop], by simp, trivial⟩
  | cons c cs ih =>
    intro skip cur
    cases skip with
    | succ k =>
      obtain ⟨l0, ls, post, h1, h2, h3⟩ := ih k cur
      exact ⟨l0, ls, post, by simp [splitLoop, h1], by simpa using h2, h3⟩
    | zero =>
      by_cases hp : sep.isPrefixOf (c :: cs) = true
      · obtain ⟨l0, ls, post, h1, h2, h3⟩ := ih (sep.length - 1) []
        refine ⟨[], l0 :: ls, c :: cs, by simp [splitLoop, hp, h1], by simp, ?_⟩
        refine ⟨c :: cs.take (sep.length - 1), post, ?_, h3⟩
        rw [List.append_assoc, ← h2]
        simp
      · obtain ⟨l0, ls, post, h1, h2, h3⟩ := ih 0 (cur ++ [c])
        refine ⟨c :: l0, ls, post, ?_, ?_, h3⟩
        · simp only [splitLoop, hp, Bool.false_eq_true, if_false, h1]
          simp
        · simpa using h2

theorem split_ordered (s sep : Str) : OrderedIn s (split s sep) := by
  unfold split
  split
  · clear * -
    induction s with
    | nil => trivial
    | cons c cs ih => exact ⟨[], cs, rfl, ih⟩
  · obtain ⟨l0, ls, post, h1, h2, h3⟩ := splitLoop_ordered sep s 0 []
    rw [h1]
    exact ⟨[], post, by simpa using h2, h3⟩

theorem SplitOnRuns_ordered {pieces : List Str} :
    ∀ {s : Str}, SplitOnRuns s pieces → OrderedIn s pieces := by
  induction pieces with
  | nil => intro s h; exact h.elim
  | cons p rest ih =>
    intro s h
    cases rest with
    | nil =>
      obtain ⟨hs, _⟩ := h
      exact ⟨[], [], by simp [hs], trivial⟩
    | cons q rest =>
      obtain ⟨run, tail, hs, _, _, _, _, hrest⟩ := h
      exact ⟨[], run ++ tail, by simp [hs], OrderedIn_append_left run (ih hrest)⟩

theorem OrderedIn_trimmed_filter {s : Str} {ls : List Str} (h : OrderedIn s ls) :
    OrderedIn s ((ls.map trimSpace).filter (fun l => !l.isEmpty)) :=
  OrderedIn_sublist (List.filter_sublist _) (OrderedIn_map trimSpace trimSpace_occurs h)

/-- C12: `prepareLines` fabricates no content.  For every text and either
value of the flag the returned lines occur in the input text as contiguous
stretches, in their order and without overlap; in particular each returned
line is a contiguous substring of the input. -/
theorem prepareLines_ordered (p : Parser) (text : Str) :
    OrderedIn text (p.prepareLines text).1
      ∧ ∀ l ∈ (p.prepareLines text).1, l <:+: text := by
  have key : OrderedIn (trimSpace text) (p.prepareLines text).1 := by
    have hlines : OrderedIn (trimSpace text) (trimmedLines (trimSpace text)) :=
      OrderedIn_trimmed_filter (split_ordered _ _)
    rcases prepareLines_cases p text with ⟨_, h⟩ | ⟨_, h⟩ | ⟨_, _, sep, _, _, h⟩ | ⟨_, _, _, h⟩
    · rw [h]
      exact OrderedIn_sublist (List.take_sublist _ _) hlines
    · rw [h]
      exact hlines
    · rw [h]
      exact OrderedIn_map trimSpace trimSpace_occurs (split_ordered _ _)
    · rw [h]
      exact OrderedIn_sublist (List.take_sublist _ _)
        (OrderedIn_trimmed_filter (SplitOnRuns_ordered (regexpSplit_runs _)))
  have hall : OrderedIn text (p.prepareLines text).1 := by
    obtain ⟨a, b, hab⟩ := trimSpace_occurs text
    have h := OrderedIn_append_right b (OrderedIn_append_left a key)
    rwa [← hab] at h
  exact ⟨hall, OrderedIn_mem hall⟩

/-! ### Round trip through `Haiku.Text` -/

theorem trimSpace_eq_self {l : Str} (hh : ∀ c ∈ l.head?, unicodeIsSpace c = false)
    (hl : ∀ c ∈ l.getLast?, unicodeIsSpace c = false) : trimSpace l = l := by
  cases l with
  | nil => rfl
  | cons c cs =>
    have hc : unicodeIsSpace c = false := hh c (by simp)
    have hd : (c :: cs).dropWhile unicodeIsSpace = c :: cs := by
      simp [List.dropWhile_cons, hc]
    rw [trimSpace_eq_rdropWhile, hd, List.rdropWhile_eq_self_iff]
    intro hne
    have := hl ((c :: cs).getLast hne) (by rw [List.getLast?_eq_getLast _ hne]; simp)
    simp [this]

theorem splitLoop_newline_append (l : Str) (hl : Char.ofNat 10 ∉ l) (rest : Str) :
    ∀ cur : Str, splitLoop [Char.ofNat 10] (l ++ rest) 0 cur
      = splitLoop [Char.ofNat 10] rest 0 (cur ++ l) := by
  induction l with
  | nil => intro cur; simp
  | cons c cs ih =>
    intro cur
    have hc : c ≠ Char.ofNat 10 := fun e => hl (by simp [e])
    have hcs : Char.ofNat 10 ∉ cs := fun e => hl (List.mem_cons_of_mem c e)
    rw [List.cons_append, splitLoop_newline_cons, if_neg hc, ih hcs]
    simp

theorem textLoop_three (l0 l1 l2 : Str) :
    textLoop [l0, l1, l2] true [] = l0 ++ Char.ofNat 10 :: (l1 ++ Char.ofNat 10 :: l2) := by
  simp [textLoop]

/-- The non-blank trimmed lines of three clean lines joined by newlines are
the three lines. -/
theorem trimmedLines_joined (l0 l1 l2 : Str) (h0 : IsCleanLine l0) (h1 : IsCleanLine l1)
    (h2 : IsCleanLine l2) :
    trimmedLines (l0 ++ Char.ofNat 10 :: (l1 ++ Char.ofNat 10 :: l2)) = [l0, l1, l2] := by
  have hs : splitLoop [Char.ofNat 10] (l0 ++ Char.ofNat 10 :: (l1 ++ Char.ofNat 10 :: l2)) 0 []
      = [l0, l1, l2] := by
    rw [splitLoop_newline_append l0 h0.2.1, splitLoop_newline_cons, if_pos rfl,
      splitLoop_newline_append l1 h1.2.1, splitLoop_newline_cons, if_pos rfl]
    have := splitLoop_newline_append l2 h2.2.1 [] []
    rw [List.append_nil] at this
    rw [this]
    simp [splitLoop]
  rw [trimmedLines_eq, hs]
  have e0 := trimSpace_eq_self h0.2.2.1 h0.2.2.2
  have e1 := trimSpace_eq_self h1.2.2.1 h1.2.2.2
  have e2 := trimSpace_eq_self h2.2.2.1 h2.2.2.2
  have n0 : l0.isEmpty = false := by simpa using h0.1
  have n1 : l1.isEmpty = false := by simpa using h1.1
  have n2 : l2.isEmpty = false := by simpa using h2.1
  simp [e0, e1, e2, n0, n1, n2]

/-- C13, as amended: for every poem with exactly 3 lines, each of them
non-empty, without a newline and without white space at its start or end,
parsing the text of the poem (its lines joined by newlines) succeeds through
the multi-line strategy, for either value of the flag, and returns the poem
itself, its 3 lines verbatim. -/
theorem text_roundtrip (p : Parser) (h : Haiku) (h3 : h.Lines.length = 3)
    (hclean : ∀ l ∈ h.Lines, IsCleanLine l) :
    p.prepareLines h.Text = (h.Lines, "multiline".toList)
      ∧ p.ParseFromString h.Text = Except.ok h := by
  obtain ⟨lines⟩ := h
  match lines, h3, hclean with
  | [l0, l1, l2], _, hclean =>
    have hT : trimmedLines (trimSpace (Haiku.mk [l0, l1, l2]).Text) = [l0, l1, l2] := by
      rw [trimmedLines_trimSpace]
      show trimmedLines (textLoop [l0, l1, l2] true []) = _
      rw [textLoop_three]
      exact trimmedLines_joined l0 l1 l2 (hclean l0 (by simp)) (hclean l1 (by simp))
        (hclean l2 (by simp))
    have hp := prepareLines_of_three p (Haiku.mk [l0, l1, l2]).Text (by rw [hT]; exact Nat.le_refl 3)
    have hq := ParseFromString_of_three p (Haiku.mk [l0, l1, l2]).Text (by rw [hT]; exact Nat.le_refl 3)
    rw [hT] at hp hq
    exact ⟨hp, hq⟩

/-- C13, witness: the poem "old pond" / "frog jumps in" / "splash" is returned
by the parse of its text. -/
theorem text_roundtrip_witness :
    (Parser.mk false).ParseFromString
        (Haiku.mk ["old pond".toList, "frog jumps in".toList, "splash".toList]).Text
      = Except.ok (Haiku.mk ["old pond".toList, "frog jumps in".toList, "splash".toList]) :=
  (text_roundtrip (Parser.mk false)
    (Haiku.mk ["old pond".toList, "frog jumps in".toList, "splash".toList]) rfl
    (by
      intro l hl
      simp only [List.mem_cons, List.mem_singleton, List.not_mem_nil, or_false] at hl
      rcases hl with h | h | h <;> subst h <;> unfold IsCleanLine <;> decide)).2

/-- C13, counterexample: the poem "a" / "" / "b" has exactly 3 lines, and the
parse of its text, "a\n\nb", fails with a count of 2 for either value of the
flag; the poem " a" / "b" / "c" has exactly 3 lines and the parse of its text
returns "a" / "b" / "c", which is not the poem. -/
theorem text_roundtrip_fails :
    (Haiku.mk ["a".toList, [], "b".toList]).IsValid = true
      ∧ (Parser.mk false).ParseFromString (Haiku.mk ["a".toList, [], "b".toList]).Text
        = Except.error "haiku must have exactly 3 lines, got 2 (source=raw)".toList
      ∧ (Parser.mk true).ParseFromString (Haiku.mk ["a".toList, [], "b".toList]).Text
        = Except.error "haiku must have exactly 3 lines, got 2 (source=raw)".toList
      ∧ (Parser.mk false).ParseFromString
          (Haiku.mk [" a".toList, "b".toList, "c".toList]).Text
        = Except.ok (Haiku.mk ["a".toList, "b".toList, "c".toList]) := by decide

/-! ## Marker detection -/

theorem contains_iff_occurs (s sub : Str) : contains s sub = true ↔ sub <:+: s := by
  induction s with
  | nil => simp [contains]
  | cons c cs ih =>
    simp only [contains, Bool.or_eq_true, List.isPrefixOf_iff_prefix, ih, List.infix_cons_iff]

theorem mem_dedupLoop (x : Str) (hits : List Str) :
    ∀ seen result : List Str,
      x ∈ dedupLoop hits seen result ↔ x ∈ result ∨ (x ∈ hits ∧ x ∉ seen) := by
  induction hits with
  | nil => intro seen result; simp [dedupLoop]
  | cons hit rest ih =>
    intro seen result
    by_cases hs : hit ∈ seen
    · have hc : seen.contains hit = true := by simpa using hs
      simp only [dedupLoop, hc, if_true, ih, List.mem_cons]
      constructor
      · rintro (h | ⟨h1, h2⟩)
        · exact Or.inl h
        · exact Or.inr ⟨Or.inr h1, h2⟩
      · rintro (h | ⟨h1 | h1, h2⟩)
        · exact Or.inl h
        · exact absurd (h1 ▸ hs) h2
        · exact Or.inr ⟨h1, h2⟩
    · have hc : seen.contains hit = false := by simpa using hs
      simp only [dedupLoop, hc, Bool.false_eq_true, if_false, ih, List.mem_append,
        List.mem_singleton, List.mem_cons, not_or, List.not_mem_nil, or_false]
      constructor
      · rintro ((h | h) | ⟨h1, h2, h3⟩)
        · exact Or.inl h
        · exact Or.inr ⟨Or.inl h, h ▸ hs⟩
        · exact Or.inr ⟨Or.inr h1, h3⟩
      · rintro (h | ⟨h1 | h1, h2⟩)
        · exact Or.inl (Or.inl h)
        · exact Or.inl (Or.inr h1)
        · by_cases hx : x = hit
          · exact Or.inl (Or.inr hx)
          · exact Or.inr ⟨h1, hx, h2⟩

theorem nodup_dedupLoop (hits : List Str) :
    ∀ seen result : List Str, result.Nodup → (∀ x ∈ result, x ∈ seen) →
      (dedupLoop hits seen result).Nodup := by
  induction hits with
  | nil => intro seen result h _; simpa [dedupLoop] using h
  | cons hit rest ih =>
    intro seen result hn hsub
    by_cases hs : hit ∈ seen
    · have hc : seen.contains hit = true := by simpa using hs
      simp only [dedupLoop, hc, if_true]
      exact ih seen result hn hsub
    · have hc : seen.contains hit = false := by simpa using hs
      simp only [dedupLoop, hc, Bool.false_eq_true, if_false]
      refine ih (hit :: seen) (result ++ [hit]) ?_ ?_
      · rw [List.nodup_append]
        refine ⟨hn, by simp, ?_⟩
        intro a ha hb
        simp only [List.mem_singleton] at hb
        exact hs (hb ▸ hsub a ha)
      · intro x hx
        rcases List.mem_append.mp hx with h | h
        · exact List.mem_cons_of_mem _ (hsub x h)
        · simp only [List.mem_singleton] at h
          simp [h]

theorem mem_insertSorted (x y : Str) (l : List Str) :
    y ∈ insertSorted x l ↔ y = x ∨ y ∈ l := by
  induction l with
  | nil => simp [insertSorted]
  | cons a l ih =>
    simp only [insertSorted]
    split
    · simp only [List.mem_cons, ih]
      tauto
    · simp only [List.mem_cons]

theorem mem_sortStrings (y : Str) (l : List Str) : y ∈ sortStrings l ↔ y ∈ l := by
  induction l with
  | nil => simp [sortStrings]
  | cons a l ih => simp [sortStrings, mem_insertSorted, ih]

theorem char_eq_of_toNat_eq {a b : Char} (h : a.toNat = b.toNat) : a = b := by
  rw [← Char.ofNat_toNat a, ← Char.ofNat_toNat b, h]

theorem strLt_irrefl (a : Str) : strLt a a = false := by
  induction a with
  | nil => rfl
  | cons c cs ih => simp [strLt, ih]

theorem strLt_trans : ∀ {a b c : Str}, strLt a b = true → strLt b c = true → strLt a c = true := by
  intro a
  induction a with
  | nil =>
    intro b c hab hbc
    cases b with
    | nil => simp [strLt] at hab
    | cons y ys =>
      cases c with
      | nil => simp [strLt] at hbc
      | cons z zs => rfl
  | cons x xs ih =>
    intro b c hab hbc
    cases b with
    | nil => simp [strLt] at hab
    | cons y ys =>
      cases c with
      | nil => simp [strLt] at hbc
      | cons z zs =>
        simp only [strLt, Bool.or_eq_true, decide_eq_true_eq, Bool.and_eq_true,
          beq_iff_eq] at hab hbc ⊢
        rcases hab with h1 | ⟨h1, h2⟩
        · rcases hbc with h3 | ⟨h3, _⟩
          · exact Or.inl (by omega)
          · exact Or.inl (h3 ▸ h1)
        · rcases hbc with h3 | ⟨h3, h4⟩
          · exact Or.inl (h1 ▸ h3)
          · exact Or.inr ⟨h1.trans h3, ih h2 h4⟩

theorem strLt_of_not : ∀ {a b : Str}, strLt a b = false → a ≠ b → strLt b a = true := by
  intro a
  induction a with
  | nil =>
    intro b hab hne
    cases b with
    | nil => exact absurd rfl hne
    | cons y ys => simp [strLt] at hab
  | cons x xs ih =>
    intro b hab hne
    cases b with
    | nil => rfl
    | cons y ys =>
      simp only [strLt, Bool.or_eq_false_iff, decide_eq_false_iff_not, Bool.and_eq_false_imp,
        beq_iff_eq] at hab
      simp only [strLt, Bool.or_eq_true, decide_eq_true_eq, Bool.and_eq_true, beq_iff_eq]
      by_cases hxy : x = y
      · subst hxy
        refine Or.inr ⟨rfl, ih (hab.2 rfl) ?_⟩
        intro h
        exact hne (by rw [h])
      · left
        have : x.toNat ≠ y.toNat := fun h => hxy (char_eq_of_toNat_eq h)
        omega

theorem insertSorted_sorted (x : Str) (l : List Str)
    (hl : l.Pairwise (fun a b => strLt a b = true)) (hx : x ∉ l) :
    (insertSorted x l).Pairwise (fun a b => strLt a b = true) := by
  induction l with
  | nil => simp [insertSorted]
  | cons y ys ih =>
    rw [List.pairwise_cons] at hl
    have hxy : x ≠ y := fun h => hx (by simp [h])
    have hxys : x ∉ ys := fun h => hx (List.mem_cons_of_mem y h)
    simp only [insertSorted]
    split
    · rename_i hlt
      rw [List.pairwise_cons]
      refine ⟨?_, ih hl.2 hxys⟩
      intro z hz
      rcases (mem_insertSorted x z ys).mp hz with h | h
      · rw [h]; exact hlt
      · exact hl.1 z h
    · rename_i hlt
      have hxy2 : strLt x y = true := strLt_of_not (by simpa using hlt) (fun h => hxy h.symm)
      rw [List.pairwise_cons]
      refine ⟨?_, List.pairwise_cons.mpr hl⟩
      intro z hz
      rcases List.mem_cons.mp hz with h | h
      · rw [h]; exact hxy2
      · exact strLt_trans hxy2 (hl.1 z h)

theorem sortStrings_sorted (l : List Str) (hn : l.Nodup) :
    (sortStrings l).Pairwise (fun a b => strLt a b = true) := by
  induction l with
  | nil => simp [sortStrings]
  | cons a l ih =>
    rw [List.nodup_cons] at hn
    simp only [sortStrings]
    exact insertSorted_sorted a _ (ih hn.2) (fun h => hn.1 ((mem_sortStrings a l).mp h))

theorem nodup_of_sorted {l : List Str} (h : l.Pairwise (fun a b => strLt a b = true)) :
    l.Nodup := by
  refine List.Pairwise.imp ?_ h
  intro a b hab heq
  rw [heq, strLt_irrefl] at hab
  exact absurd hab (by simp)

theorem DetectKireji_eq (U : Unicode) (M : Markers) (text : Str) :
    DetectKireji U M text
      = if M.kirejiMarkers.filter (fun marker => contains (toLower U text) marker) = [] then
          (false, [])
        else (true, sortStrings (dedupLoop
          (M.kirejiMarkers.filter (fun marker => contains (toLower U text) marker)) [] [])) := by
  unfold DetectKireji
  simp only
  cases M.kirejiMarkers.filter (fun marker => contains (toLower U text) marker) with
  | nil => simp
  | cons a l => simp

theorem mem_DetectKireji (U : Unicode) (M : Markers) (text m : Str) :
    m ∈ (DetectKireji U M text).2 ↔ m ∈ M.kirejiMarkers ∧ m <:+: toLower U text := by
  rw [DetectKireji_eq]
  split
  · rename_i h
    rw [List.filter_eq_nil_iff] at h
    simp only [List.not_mem_nil, false_iff, not_and]
    intro hm hinf
    exact h m hm ((contains_iff_occurs _ _).mpr hinf)
  · simp only [mem_sortStrings, mem_dedupLoop, List.not_mem_nil, false_or, not_false_eq_true,
      and_true, List.mem_filter, contains_iff_occurs]

theorem DetectKireji_found (U : Unicode) (M : Markers) (text : Str) :
    (DetectKireji U M text).1 = true ↔ (DetectKireji U M text).2 ≠ [] := by
  rw [DetectKireji_eq]
  split
  · simp
  · rename_i h
    obtain ⟨a, l, hal⟩ := List.exists_cons_of_ne_nil h
    simp only [true_iff]
    intro hnil
    have : a ∈ sortStrings (dedupLoop
        (M.kirejiMarkers.filter (fun marker => contains (toLower U text) marker)) [] []) := by
      rw [mem_sortStrings, mem_dedupLoop, hal]
      simp
    rw [hnil] at this
    simp at this

theorem DetectSeasonWords_eq (U : Unicode) (M : Markers) (text : Str) :
    DetectSeasonWords U M text
      = sortStrings (dedupLoop
          (M.kigo.filter (fun seasonWord => contains (toLower U text) seasonWord)) [] []) := by
  unfold DetectSeasonWords
  simp only
  split
  · rename_i h
    have : dedupLoop (M.kigo.filter (fun seasonWord => contains (toLower U text) seasonWord))
        [] [] = [] := by simpa using h
    rw [this]
    rfl
  · rfl

theorem mem_DetectSeasonWords (U : Unicode) (M : Markers) (text m : Str) :
    m ∈ DetectSeasonWords U M text ↔ m ∈ M.kigo ∧ m <:+: toLower U text := by
  rw [DetectSeasonWords_eq]
  simp only [mem_sortStrings, mem_dedupLoop, List.not_mem_nil, false_or, not_false_eq_true,
    and_true, List.mem_filter, contains_iff_occurs]

theorem DetectKireji_congr {U V : Unicode} {text : Str} (h : toLower U text = toLower V text)
    (M : Markers) : DetectKireji U M text = DetectKireji V M text := by
  unfold DetectKireji
  rw [h]

theorem DetectSeasonWords_congr {U V : Unicode} {text : Str}
    (h : toLower U text = toLower V text) (M : Markers) :
    DetectSeasonWords U M text = DetectSeasonWords V M text := by
  unfold DetectSeasonWords
  rw [h]

set_option maxRecDepth 100000 in
/-- C14: for every marker list and every text, a string is in the list that
`DetectKireji` (resp. `DetectSeasonWords`) returns exactly when it is an entry
of the cutting-word (resp. season-word) list and a contiguous substring of the
lowercased text; the boolean of `DetectKireji` is true exactly when its list is
not empty, and `HasSeasonWord` is true exactly when `DetectSeasonWords` is not
empty.  With the initial lists, "autumn leaves fall down" yields "autumn",
"fall", "leaves". -/
theorem detect_membership (U : Unicode) (M : Markers) (text m : Str) :
    (m ∈ (DetectKireji U M text).2 ↔ m ∈ M.kirejiMarkers ∧ m <:+: toLower U text)
      ∧ ((DetectKireji U M text).1 = true ↔ (DetectKireji U M text).2 ≠ [])
      ∧ (m ∈ DetectSeasonWords U M text ↔ m ∈ M.kigo ∧ m <:+: toLower U text)
      ∧ (HasSeasonWord U M text = true ↔ DetectSeasonWords U M text ≠ [])
      ∧ DetectSeasonWords U initialMarkers "autumn leaves fall down".toList
        = ["autumn".toList, "fall".toList, "leaves".toList] := by
  refine ⟨mem_DetectKireji U M text m, DetectKireji_found U M text,
    mem_DetectSeasonWords U M text m, ?_, ?_⟩
  · unfold HasSeasonWord
    cases DetectSeasonWords U M text <;> simp
  · rw [DetectSeasonWords_congr (toLower_ascii U (by decide)) initialMarkers]
    decide

theorem toLower_of_fixed (U : Unicode) (s : Str)
    (h : ∀ c ∈ s, c.toNat < 128 ∨ U.lower c = c) :
    toLower U s = toLower Unicode.ascii s := by
  apply List.map_congr_left
  intro c hc
  rcases h c hc with h1 | h1
  · exact unicodeToLower_ascii U h1
  · by_cases h2 : c.toNat < 128
    · exact unicodeToLower_ascii U h2
    · simp [unicodeToLower, h2, h1, Unicode.ascii]

set_option maxRecDepth 100000 in
/-- C15: for every marker list and every text, the lists that `DetectKireji`
and `DetectSeasonWords` return are in strictly increasing order of their
strings, hence without duplicates.  With the initial lists, "cherry blossoms —
spring rain — peaceful" yields the one hit "—" (the dash being its own lower
case), and "hello, world! how are you?" yields "!", "?". -/
theorem detect_sorted (U : Unicode) (M : Markers) (text : Str) :
    (DetectKireji U M text).2.Pairwise (fun a b => strLt a b = true)
      ∧ (DetectKireji U M text).2.Nodup
      ∧ (DetectSeasonWords U M text).Pairwise (fun a b => strLt a b = true)
      ∧ (DetectSeasonWords U M text).Nodup
      ∧ (U.lower (Char.ofNat 0x2014) = Char.ofNat 0x2014 →
          DetectKireji U initialMarkers "cherry blossoms — spring rain — peaceful".toList
            = (true, ["—".toList]))
      ∧ DetectKireji U initialMarkers "hello, world! how are you?".toList
        = (true, ["!".toList, "?".toList]) := by
  have hk : (DetectKireji U M text).2.Pairwise (fun a b => strLt a b = true) := by
    rw [DetectKireji_eq]
    split
    · exact List.Pairwise.nil
    · exact sortStrings_sorted _ (nodup_dedupLoop _ [] [] List.nodup_nil (by simp))
  have hs : (DetectSeasonWords U M text).Pairwise (fun a b => strLt a b = true) := by
    rw [DetectSeasonWords_eq]
    exact sortStrings_sorted _ (nodup_dedupLoop _ [] [] List.nodup_nil (by simp))
  refine ⟨hk, nodup_of_sorted hk, hs, nodup_of_sorted hs, ?_, ?_⟩
  · intro hdash
    have hfix : ∀ c ∈ "cherry blossoms — spring rain — peaceful".toList,
        c.toNat < 128 ∨ U.lower c = c := by
      have hall : ∀ c ∈ "cherry blossoms — spring rain — peaceful".toList,
          c.toNat < 128 ∨ c = Char.ofNat 0x2014 := by decide
      intro c hc
      rcases hall c hc with h | h
      · exact Or.inl h
      · exact Or.inr (by rw [h, hdash])
    rw [DetectKireji_congr (toLower_of_fixed U _ hfix) initialMarkers]
    decide
  · rw [DetectKireji_congr (toLower_ascii U (by decide)) initialMarkers]
    decide

/-! ### Case of the text -/

theorem ascii_case_laws (U : Unicode) {c : Char} (h : c.toNat < 128) :
    unicodeToLower U (unicodeToUpper U c) = unicodeToLower U c
      ∧ unicodeToLower U (unicodeToLower U c) = unicodeToLower U c := by
  have hval : ∀ n : Nat, n < 256 → (Char.ofNat n).toNat = n := by
    intro n hn
    have hv : n.isValidChar := Or.inl (by omega)
    rw [Char.ofNat, dif_pos hv]
    rfl
  constructor
  · by_cases hl : isAsciiLower c = true
    · have hl2 := hl
      simp only [isAsciiLower, Bool.and_eq_true, decide_eq_true_eq] at hl2
      have h1 : (Char.ofNat (c.toNat - 32)).toNat = c.toNat - 32 := hval _ (by omega)
      have hu : isAsciiUpper (Char.ofNat (c.toNat - 32)) = true := by
        simp only [isAsciiUpper, h1, Bool.and_eq_true, decide_eq_true_eq]; omega
      have hnu : isAsciiUpper c = false := by
        simp only [isAsciiUpper, Bool.and_eq_false_imp, decide_eq_true_eq,
          decide_eq_false_iff_not]; omega
      have h2 : (Char.ofNat (c.toNat - 32)).toNat < 128 := by rw [h1]; omega
      simp only [unicodeToUpper, h, if_true, hl, unicodeToLower, h2, hu, hnu,
        Bool.false_eq_true, if_false, h1]
      have h3 : c.toNat - 32 < 128 := by omega
      have h4 : c.toNat - 32 + 32 = c.toNat := by omega
      simp [h3, h4]
    · simp [unicodeToUpper, h, hl]
  · by_cases hu : isAsciiUpper c = true
    · have hu2 := hu
      simp only [isAsciiUpper, Bool.and_eq_true, decide_eq_true_eq] at hu2
      have h1 : (Char.ofNat (c.toNat + 32)).toNat = c.toNat + 32 := hval _ (by omega)
      have hnu : isAsciiUpper (Char.ofNat (c.toNat + 32)) = false := by
        simp only [isAsciiUpper, h1, Bool.and_eq_false_imp, decide_eq_true_eq,
          decide_eq_false_iff_not]; omega
      have h2 : (Char.ofNat (c.toNat + 32)).toNat < 128 := by rw [h1]; omega
      simp only [unicodeToLower, h, if_true, hu, h2, hnu, Bool.false_eq_true, if_false]
    · simp [unicodeToLower, h, hu]

/-- C16, as amended: for every text whose characters `c` all satisfy
`lower (upper c) = lower c` and `lower (lower c) = lower c` under the case
mappings (every ASCII character does), `DetectKireji` and `DetectSeasonWords`
return the same result on the text, on the text converted to upper case and on
the text converted to lower case, and so does `HasSeasonWord`. -/
theorem detect_case_insensitive (U : Unicode) (M : Markers) (t : Str)
    (hup : ∀ c ∈ t, unicodeToLower U (unicodeToUpper U c) = unicodeToLower U c)
    (hlow : ∀ c ∈ t, unicodeToLower U (unicodeToLower U c) = unicodeToLower U c) :
    DetectKireji U M (toUpper U t) = DetectKireji U M t
      ∧ DetectKireji U M (toLower U t) = DetectKireji U M t
      ∧ DetectSeasonWords U M (toUpper U t) = DetectSeasonWords U M t
      ∧ DetectSeasonWords U M (toLower U t) = DetectSeasonWords U M t
      ∧ HasSeasonWord U M (toUpper U t) = HasSeasonWord U M t
      ∧ HasSeasonWord U M (toLower U t) = HasSeasonWord U M t := by
  have h1 : toLower U (toUpper U t) = toLower U t := by
    simp only [toLower, toUpper, List.map_map]
    exact List.map_congr_left (fun c hc => hup c hc)
  have h2 : toLower U (toLower U t) = toLower U t := by
    simp only [toLower, List.map_map]
    exact List.map_congr_left (fun c hc => hlow c hc)
  refine ⟨?_, ?_, ?_, ?_, ?_, ?_⟩
  · unfold DetectKireji; rw [h1]
  · unfold DetectKireji; rw [h2]
  · unfold DetectSeasonWords; rw [h1]
  · unfold DetectSeasonWords; rw [h2]
  · unfold HasSeasonWord DetectSeasonWords; rw [h1]
  · unfold HasSeasonWord DetectSeasonWords; rw [h2]

/-- The hypotheses of `detect_case_insensitive` hold for every ASCII text. -/
theorem detect_case_insensitive_ascii (U : Unicode) (M : Markers) (t : Str)
    (h : isAscii t = true) :
    DetectKireji U M (toUpper U t) = DetectKireji U M t
      ∧ DetectKireji U M (toLower U t) = DetectKireji U M t
      ∧ DetectSeasonWords U M (toUpper U t) = DetectSeasonWords U M t
      ∧ DetectSeasonWords U M (toLower U t) = DetectSeasonWords U M t := by
  simp only [isAscii, List.all_eq_true, decide_eq_true_eq] at h
  have h1 : toLower U (toUpper U t) = toLower U t := by
    simp only [toLower, toUpper, List.map_map]
    exact List.map_congr_left (fun c hc => (ascii_case_laws U (h c hc)).1)
  have h2 : toLower U (toLower U t) = toLower U t := by
    simp only [toLower, List.map_map]
    exact List.map_congr_left (fun c hc => (ascii_case_laws U (h c hc)).2)
  refine ⟨?_, ?_, ?_, ?_⟩
  · unfold DetectKireji; rw [h1]
  · unfold DetectKireji; rw [h2]
  · unfold DetectSeasonWords; rw [h1]
  · unfold DetectSeasonWords; rw [h2]

set_option maxRecDepth 100000 in
/-- C16, witness: "SUMMER fun" has a season word, and `DetectSeasonWords`
returns the same list for it and for its lower-case form "summer fun". -/
theorem detect_case_insensitive_witness :
    DetectSeasonWords Unicode.ascii initialMarkers (toLower Unicode.ascii "SUMMER fun".toList)
        = DetectSeasonWords Unicode.ascii initialMarkers "SUMMER fun".toList
      ∧ toLower Unicode.ascii "SUMMER fun".toList = "summer fun".toList
      ∧ HasSeasonWord Unicode.ascii initialMarkers "SUMMER fun".toList = true :=
  ⟨(detect_case_insensitive Unicode.ascii initialMarkers "SUMMER fun".toList (by decide)
      (by decide)).2.2.2.1, by decide, by decide⟩

set_option maxRecDepth 100000 in
/-- C16, counterexample: with the case pair of the long s (U+017F, upper case
`S`), the text "ſun" holds no season word, while its upper-case form "SUN" is
lowercased to "sun" and yields the season word "sun". -/
theorem detect_upper_differs :
    DetectSeasonWords Unicode.longS initialMarkers "ſun".toList = []
      ∧ toUpper Unicode.longS "ſun".toList = "SUN".toList
      ∧ DetectSeasonWords Unicode.longS initialMarkers (toUpper Unicode.longS "ſun".toList)
        = ["sun".toList] := by decide

/-! ### The empty text and the add operations -/

theorem contains_nil_left (sub : Str) : contains [] sub = sub.isEmpty := rfl

theorem AddSeasonWord_congr {U V : Unicode} {word : Str}
    (h : toLower U word = toLower V word) (M : Markers) :
    AddSeasonWord U M word = AddSeasonWord V M word := by
  unfold AddSeasonWord
  rw [h]

theorem filter_contains_nil (l : List Str) (h : [] ∉ l) :
    l.filter (fun marker => contains [] marker) = [] := by
  rw [List.filter_eq_nil_iff]
  intro m hm
  have hne : m ≠ [] := fun e => h (e ▸ hm)
  simpa [contains_nil_left] using hne

/-- C17, as amended: for every marker list that holds no empty string,
detection over the empty text reports nothing: `DetectKireji` returns false and
no hit, `DetectSeasonWords` returns no word.  The initial lists hold no empty
string, and adding a non-empty string to either list keeps this. -/
theorem detect_empty_text (U : Unicode) (M : Markers) :
    ([] ∉ M.kirejiMarkers → DetectKireji U M [] = (false, []))
      ∧ ([] ∉ M.kigo → DetectSeasonWords U M [] = [])
      ∧ [] ∉ initialMarkers.kirejiMarkers ∧ [] ∉ initialMarkers.kigo
      ∧ DetectKireji U initialMarkers [] = (false, [])
      ∧ DetectSeasonWords U initialMarkers [] = []
      ∧ (∀ m : Str, m ≠ [] → [] ∉ M.kirejiMarkers →
          [] ∉ (AddKirejiMarker M m).kirejiMarkers)
      ∧ (∀ m : Str, m ≠ [] → [] ∉ M.kigo → [] ∉ (AddSeasonWord U M m).kigo)
      ∧ (∀ m : Str, (AddKirejiMarker M m).kigo = M.kigo
          ∧ (AddSeasonWord U M m).kirejiMarkers = M.kirejiMarkers) := by
  have hk : ∀ N : Markers, [] ∉ N.kirejiMarkers → DetectKireji U N [] = (false, []) := by
    intro N h
    rw [DetectKireji_eq]
    have : toLower U [] = [] := rfl
    rw [this, filter_contains_nil _ h]
    rfl
  have hs : ∀ N : Markers, [] ∉ N.kigo → DetectSeasonWords U N [] = [] := by
    intro N h
    rw [DetectSeasonWords_eq]
    have : toLower U [] = [] := rfl
    rw [this, filter_contains_nil _ h]
    rfl
  have h1 : [] ∉ initialMarkers.kirejiMarkers := by decide
  have h2 : [] ∉ initialMarkers.kigo := by decide
  refine ⟨hk M, hs M, h1, h2, hk _ h1, hs _ h2, ?_, ?_, ?_⟩
  · intro m hm h
    unfold AddKirejiMarker
    split
    · exact h
    · simp only [List.mem_append, List.mem_singleton, not_or]
      exact ⟨h, fun e => hm e.symm⟩
  · intro m hm h
    have hl : toLower U m ≠ [] := by
      cases m with
      | nil => exact absurd rfl hm
      | cons c cs => simp [toLower]
    unfold AddSeasonWord
    split
    · exact h
    · simp only [List.mem_append, List.mem_singleton, not_or]
      exact ⟨h, fun e => hl e.symm⟩
  · intro m
    constructor
    · unfold AddKirejiMarker
      split <;> rfl
    · unfold AddSeasonWord
      split <;> rfl

/-- C17, counterexample: after the empty string is added to the cutting-word
list, `DetectKireji` on the empty text returns true with the empty string as
its hit; after it is added to the season-word list, `DetectSeasonWords` on the
empty text returns the empty string. -/
theorem detect_empty_marker :
    (∀ U : Unicode, DetectKireji U (AddKirejiMarker initialMarkers []) [] = (true, [[]]))
      ∧ (∀ U : Unicode,
          DetectSeasonWords U (AddSeasonWord U initialMarkers []) [] = [[]]) := by
  constructor
  · intro U
    rw [@DetectKireji_congr U Unicode.ascii [] rfl]
    decide
  · intro U
    rw [@AddSeasonWord_congr U Unicode.ascii [] rfl,
      @DetectSeasonWords_congr U Unicode.ascii [] rfl]
    decide

theorem any_beq_iff (l : List Str) (m : Str) :
    l.any (fun existing => existing == m) = true ↔ m ∈ l := by
  simp only [List.any_eq_true, beq_iff_eq]
  constructor
  · rintro ⟨x, hx, rfl⟩
    exact hx
  · intro h
    exact ⟨m, h, rfl⟩

theorem AddKirejiMarker_of_mem {M : Markers} {m : Str} (h : m ∈ M.kirejiMarkers) :
    AddKirejiMarker M m = M := by
  unfold AddKirejiMarker
  rw [if_pos ((any_beq_iff _ _).mpr h)]

theorem AddKirejiMarker_of_not_mem {M : Markers} {m : Str} (h : m ∉ M.kirejiMarkers) :
    AddKirejiMarker M m = ⟨M.kirejiMarkers ++ [m], M.kigo⟩ := by
  unfold AddKirejiMarker
  rw [if_neg (fun e => h ((any_beq_iff _ _).mp e))]

theorem AddSeasonWord_of_mem {U : Unicode} {M : Markers} {m : Str}
    (h : toLower U m ∈ M.kigo) : AddSeasonWord U M m = M := by
  unfold AddSeasonWord
  rw [if_pos ((any_beq_iff _ _).mpr h)]

theorem AddSeasonWord_of_not_mem {U : Unicode} {M : Markers} {m : Str}
    (h : toLower U m ∉ M.kigo) :
    AddSeasonWord U M m = ⟨M.kirejiMarkers, M.kigo ++ [toLower U m]⟩ := by
  unfold AddSeasonWord
  rw [if_neg (fun e => h ((any_beq_iff _ _).mp e))]

/-- C18, as amended: adding `m` to a cutting-word list that does not hold `m`
appends the one entry `m` and changes nothing else; adding `m` to a season-word
list that does not hold the lowercase form of `m` appends that lowercase form
and changes nothing else; when the entry is already held the add changes
nothing.  For both lists a second add of the same `m` leaves the lists as the
first add left them, so the sizes after two adds and after one are equal. -/
theorem add_idempotent (U : Unicode) (M : Markers) (m : Str) :
    (m ∉ M.kirejiMarkers → AddKirejiMarker M m = ⟨M.kirejiMarkers ++ [m], M.kigo⟩)
      ∧ (m ∈ M.kirejiMarkers → AddKirejiMarker M m = M)
      ∧ AddKirejiMarker (AddKirejiMarker M m) m = AddKirejiMarker M m
      ∧ (GetKirejiMarkers (AddKirejiMarker (AddKirejiMarker M m) m)).length
        = (GetKirejiMarkers (AddKirejiMarker M m)).length
      ∧ (toLower U m ∉ M.kigo →
          AddSeasonWord U M m = ⟨M.kirejiMarkers, M.kigo ++ [toLower U m]⟩)
      ∧ (toLower U m ∈ M.kigo → AddSeasonWord U M m = M)
      ∧ AddSeasonWord U (AddSeasonWord U M m) m = AddSeasonWord U M m
      ∧ (GetSeasonWords (AddSeasonWord U (AddSeasonWord U M m) m)).length
        = (GetSeasonWords (AddSeasonWord U M m)).length := by
  have hk : AddKirejiMarker (AddKirejiMarker M m) m = AddKirejiMarker M m := by
    apply AddKirejiMarker_of_mem
    by_cases h : m ∈ M.kirejiMarkers
    · rw [AddKirejiMarker_of_mem h]; exact h
    · rw [AddKirejiMarker_of_not_mem h]; simp
  have hs : AddSeasonWord U (AddSeasonWord U M m) m = AddSeasonWord U M m := by
    apply AddSeasonWord_of_mem
    by_cases h : toLower U m ∈ M.kigo
    · rw [AddSeasonWord_of_mem h]; exact h
    · rw [AddSeasonWord_of_not_mem h]; simp
  exact ⟨AddKirejiMarker_of_not_mem, AddKirejiMarker_of_mem, hk, by rw [hk],
    AddSeasonWord_of_not_mem, AddSeasonWord_of_mem, hs, by rw [hs]⟩

set_option maxRecDepth 100000 in
/-- C18, counterexample: the initial season-word list does not hold "SPRING",
and adding "SPRING" to it leaves it unchanged, because its lowercase form
"spring" is an entry. -/
theorem add_uppercase_season_word :
    "SPRING".toList ∉ initialMarkers.kigo
      ∧ ∀ U : Unicode, (AddSeasonWord U initialMarkers "SPRING".toList).kigo
          = initialMarkers.kigo := by
  refine ⟨by decide, fun U => ?_⟩
  rw [AddSeasonWord_congr (toLower_ascii U (by decide)) initialMarkers]
  decide

set_option maxRecDepth 100000 in
/-- C19: `AddKirejiMarker` appends its argument as it is written.  Adding
"YA" to the initial cutting-word list, which holds "ya", appends "YA"; adding
"STOP" appends "STOP" and not its lowercase form "stop", so that the new entry
is not lowercase and is found in no text, every text being lowercased before
the search.  `AddSeasonWord` lowercases: adding "STOP" appends "stop". -/
theorem AddKirejiMarker_keeps_case :
    (AddKirejiMarker initialMarkers "YA".toList).kirejiMarkers
        = kirejiMarkers ++ ["YA".toList]
      ∧ "ya".toList ∈ kirejiMarkers
      ∧ (AddKirejiMarker initialMarkers "STOP".toList).kirejiMarkers
        = kirejiMarkers ++ ["STOP".toList]
      ∧ "stop".toList ∉ (AddKirejiMarker initialMarkers "STOP".toList).kirejiMarkers
      ∧ toLower Unicode.ascii "STOP".toList = "stop".toList
      ∧ DetectKireji Unicode.ascii (AddKirejiMarker initialMarkers "STOP".toList)
          "stop STOP".toList = (false, [])
      ∧ (AddSeasonWord Unicode.ascii initialMarkers "STOP".toList).kigo
        = kigo ++ ["stop".toList] := by decide

/-! ## Validity of the poem -/

theorem lineLoop_lengths (U : Unicode) (lines : List Str) :
    ∀ t : Tally,
      (lineLoop U lines t).lineSyllables.length = t.lineSyllables.length + lines.length
        ∧ (lineLoop U lines t).lineWords.length = t.lineWords.length + lines.length := by
  induction lines with
  | nil => intro t; exact ⟨rfl, rfl⟩
  | cons l ls ih =>
    intro t
    simp only [lineLoop]
    obtain ⟨h1, h2⟩ := ih
      { lineSyllables := t.lineSyllables ++
          [(wordLoop U (ExtractWords l) (0, t.totalLetters, t.uniqueWords)).1],
        lineWords := t.lineWords ++ [((ExtractWords l).length : Int)],
        totalLetters := (wordLoop U (ExtractWords l) (0, t.totalLetters, t.uniqueWords)).2.1,
        uniqueWords := (wordLoop U (ExtractWords l) (0, t.totalLetters, t.uniqueWords)).2.2 }
    simp only [List.length_append, List.length_cons, List.length_nil] at h1 h2 ⊢
    constructor <;> omega

theorem IsValid_iff (h : Haiku) : h.IsValid = true ↔ h.Lines.length = 3 := by
  simp [Haiku.IsValid]

/-- C20: `Analyze` returns no metrics exactly when the poem does not have
exactly 3 lines, that is when `IsValid` is false.  For a poem of 3 lines it
returns metrics whose lines are those of the poem and whose per-line syllable
and word counts have 3 entries each.  Every poem that `ParseFromString` returns
is analysed. -/
theorem Analyze_iff_valid (U : Unicode) (M : Markers) (a : Analyzer) (h : Haiku) :
    (a.Analyze U M h = none ↔ h.IsValid = false)
      ∧ (h.IsValid = false ↔ h.Lines.length ≠ 3)
      ∧ (h.Lines.length = 3 → ∃ m, a.Analyze U M h = some m ∧ m.Lines = h.Lines
          ∧ m.LineSyllables.length = 3 ∧ m.LineWords.length = 3)
      ∧ (∀ (p : Parser) (text : Str) (hk : Haiku), p.ParseFromString text = Except.ok hk →
          ∃ m, a.Analyze U M hk = some m) := by
  have hsome : ∀ k : Haiku, k.Lines.length = 3 → ∃ m, a.Analyze U M k = some m
      ∧ m.Lines = k.Lines ∧ m.LineSyllables.length = 3 ∧ m.LineWords.length = 3 := by
    intro k hk
    have hv : k.IsValid = true := (IsValid_iff k).mpr hk
    obtain ⟨h1, h2⟩ := lineLoop_lengths U k.Lines ⟨[], [], 0, []⟩
    unfold Analyzer.Analyze
    simp only [hv, Bool.not_true, Bool.false_eq_true, if_false]
    refine ⟨_, rfl, rfl, ?_, ?_⟩
    · rw [h1, hk]; rfl
    · rw [h2, hk]; rfl
  refine ⟨?_, ?_, hsome h, ?_⟩
  · constructor
    · intro hn
      by_contra hv
      have hv2 : h.IsValid = true := by simpa using hv
      obtain ⟨m, hm, _⟩ := hsome h ((IsValid_iff h).mp hv2)
      rw [hn] at hm
      exact absurd hm (by simp)
    · intro hv
      unfold Analyzer.Analyze
      simp [hv]
  · simp [Haiku.IsValid]
  · intro p text hk hok
    unfold Parser.ParseFromString at hok
    split at hok
    · exact absurd hok (by simp)
    · rename_i hlen
      simp only [Except.ok.injEq] at hok
      have h3 : hk.Lines.length = 3 := by
        rw [← hok]
        simpa [NewHaiku] using hlen
      obtain ⟨m, hm, _⟩ := hsome hk h3
      exact ⟨m, hm⟩

/-! ## The metrics -/

/-- The fields of the metrics that `Analyze` returns for a valid poem. -/
theorem Analyze_fields (U : Unicode) (M : Markers) (a : Analyzer) (h : Haiku)
    (hv : h.IsValid = true) :
    ∃ m, a.Analyze U M h = some m
      ∧ m.Lines = h.Lines
      ∧ m.LineSyllables = (lineLoop U h.Lines ⟨[], [], 0, []⟩).lineSyllables
      ∧ m.LineWords = (lineLoop U h.Lines ⟨[], [], 0, []⟩).lineWords
      ∧ m.TotalSyllables = m.LineSyllables.getD 0 0 + m.LineSyllables.getD 1 0
          + m.LineSyllables.getD 2 0
      ∧ m.TotalWords = m.LineWords.getD 0 0 + m.LineWords.getD 1 0 + m.LineWords.getD 2 0
      ∧ m.UniqueWords = ((lineLoop U h.Lines ⟨[], [], 0, []⟩).uniqueWords.length : Int)
      ∧ m.LexicalDensity
          = (if m.TotalWords > 0 then (m.UniqueWords : ℚ) / (m.TotalWords : ℚ) else 0)
      ∧ m.AvgWordLen
          = (if m.TotalWords > 0 then
              ((lineLoop U h.Lines ⟨[], [], 0, []⟩).totalLetters : ℚ) / (m.TotalWords : ℚ)
            else 0)
      ∧ (m.HasKireji, m.KirejiHits) = DetectKireji U M (joinSpace h.Lines)
      ∧ m.SeasonWords = DetectSeasonWords U M (joinSpace h.Lines)
      ∧ m.Valid575 = a.IsValid575 m.LineSyllables
      ∧ m.Tolerance = a.tolerance := by
  unfold Analyzer.Analyze
  simp only [hv, Bool.not_true, Bool.false_eq_true, if_false]
  exact ⟨_, rfl, rfl, rfl, rfl, rfl, rfl, rfl, rfl, rfl, rfl, rfl, rfl, rfl⟩

theorem wordLoop_syllables (U : Unicode) (words : List Str) :
    ∀ st : Int × Nat × List Str,
      (wordLoop U words st).1
        = st.1 + (((words.map (fun w => CountSyllables U (toLower U w))).sum : Nat) : Int) := by
  induction words with
  | nil => intro st; simp [wordLoop]
  | cons w ws ih =>
    rintro ⟨syll, letters, uniq⟩
    simp only [wordLoop, ih, List.map_cons, List.sum_cons]
    push_cast
    ring

theorem lineLoop_counts (U : Unicode) (lines : List Str) :
    ∀ t : Tally,
      (lineLoop U lines t).lineSyllables
          = t.lineSyllables ++ lines.map (fun l => ((CountLineSyllables U l : Nat) : Int))
        ∧ (lineLoop U lines t).lineWords
          = t.lineWords ++ lines.map (fun l => (((ExtractWords l).length : Nat) : Int)) := by
  induction lines with
  | nil => intro t; simp [lineLoop]
  | cons l ls ih =>
    intro t
    simp only [lineLoop]
    obtain ⟨h1, h2⟩ := ih
      { lineSyllables := t.lineSyllables ++
          [(wordLoop U (ExtractWords l) (0, t.totalLetters, t.uniqueWords)).1],
        lineWords := t.lineWords ++ [((ExtractWords l).length : Int)],
        totalLetters := (wordLoop U (ExtractWords l) (0, t.totalLetters, t.uniqueWords)).2.1,
        uniqueWords := (wordLoop U (ExtractWords l) (0, t.totalLetters, t.uniqueWords)).2.2 }
    rw [h1, h2]
    simp only [wordLoop_syllables, CountLineSyllables, zero_add, List.map_cons,
      List.append_assoc, List.singleton_append, and_self]

/-- C22: for every poem of 3 lines, the word count of line `i` in the metrics
is the number of tokens that `ExtractWords` returns for the line, its syllable
count is the sum of `CountSyllables` over the lowercased tokens of the line,
which is `CountLineSyllables` of the line, and the two totals are the sums of
the three per-line counts. -/
theorem Analyze_counts (U : Unicode) (M : Markers) (a : Analyzer) (l0 l1 l2 : Str) :
    ∃ m, a.Analyze U M ⟨[l0, l1, l2]⟩ = some m
      ∧ m.LineWords = [((ExtractWords l0).length : Int), ((ExtractWords l1).length : Int),
          ((ExtractWords l2).length : Int)]
      ∧ m.LineSyllables = [(CountLineSyllables U l0 : Int), (CountLineSyllables U l1 : Int),
          (CountLineSyllables U l2 : Int)]
      ∧ (∀ l : Str, CountLineSyllables U l
          = ((ExtractWords l).map (fun w => CountSyllables U (toLower U w))).sum)
      ∧ m.TotalWords = (((ExtractWords l0).length + (ExtractWords l1).length
          + (ExtractWords l2).length : Nat) : Int)
      ∧ m.TotalSyllables = ((CountLineSyllables U l0 + CountLineSyllables U l1
          + CountLineSyllables U l2 : Nat) : Int)
      ∧ m.TotalWords = m.LineWords.sum ∧ m.TotalSyllables = m.LineSyllables.sum := by
  obtain ⟨m, hm, _, hs, hw, hts, htw, _⟩ := Analyze_fields U M a ⟨[l0, l1, l2]⟩ rfl
  obtain ⟨h1, h2⟩ := lineLoop_counts U [l0, l1, l2] ⟨[], [], 0, []⟩
  have hs2 : m.LineSyllables = [(CountLineSyllables U l0 : Int),
      (CountLineSyllables U l1 : Int), (CountLineSyllables U l2 : Int)] := by
    rw [hs, h1]; rfl
  have hw2 : m.LineWords = [((ExtractWords l0).length : Int),
      ((ExtractWords l1).length : Int), ((ExtractWords l2).length : Int)] := by
    rw [hw, h2]; rfl
  refine ⟨m, hm, hw2, hs2, fun l => rfl, ?_, ?_, ?_, ?_⟩
  · rw [htw, hw2]
    simp only [List.getD_cons_zero, List.getD_cons_succ]
    push_cast
    rfl
  · rw [hts, hs2]
    simp only [List.getD_cons_zero, List.getD_cons_succ]
    push_cast
    rfl
  · rw [htw, hw2]
    simp only [List.getD_cons_zero, List.getD_cons_succ, List.sum_cons, List.sum_nil]
    ring
  · rw [hts, hs2]
    simp only [List.getD_cons_zero, List.getD_cons_succ, List.sum_cons, List.sum_nil]
    ring

set_option maxRecDepth 100000 in
/-- C21: analysing the poem "old pond—" / "frog jumps in" / "splash!" with
tolerance 0 returns metrics with a cutting marker found, with both "—" and "!"
among the hits, with the per-line syllable counts 2, 3, 1 and with the 5-7-5
validity false.  The dash is its own lower case, as in Go's tables, and the
marker list holds "—" and "!", as the initial list and every list grown from it
do. -/
theorem analyze_oldPondDash (U : Unicode) (M : Markers)
    (hdash : U.lower (Char.ofNat 0x2014) = Char.ofNat 0x2014)
    (hM1 : "—".toList ∈ M.kirejiMarkers) (hM2 : "!".toList ∈ M.kirejiMarkers) :
    ∃ m, (New 0).Analyze U M oldPondDash = some m ∧ m.HasKireji = true
      ∧ "—".toList ∈ m.KirejiHits ∧ "!".toList ∈ m.KirejiHits
      ∧ m.LineSyllables = [2, 3, 1] ∧ m.Valid575 = false := by
  obtain ⟨m, hm, _, hs, _, _, _, _, _, _, hk, _, hvalid, _⟩ :=
    Analyze_fields U M (New 0) oldPondDash (by decide)
  have htext : joinSpace oldPondDash.Lines = "old pond— frog jumps in splash!".toList := by
    decide
  have hfix : ∀ c ∈ "old pond— frog jumps in splash!".toList,
      c.toNat < 128 ∨ U.lower c = c := by
    have hall : ∀ c ∈ "old pond— frog jumps in splash!".toList,
        c.toNat < 128 ∨ c = Char.ofNat 0x2014 := by decide
    intro c hc
    rcases hall c hc with h | h
    · exact Or.inl h
    · exact Or.inr (by rw [h, hdash])
  have hlow := toLower_of_fixed U _ hfix
  have hhit : m.KirejiHits = (DetectKireji U M (joinSpace oldPondDash.Lines)).2 := by
    rw [← hk]
  have hfound : m.HasKireji = (DetectKireji U M (joinSpace oldPondDash.Lines)).1 := by
    rw [← hk]
  have hd : "—".toList ∈ m.KirejiHits := by
    rw [hhit, htext, mem_DetectKireji, hlow, ← contains_iff_occurs]
    exact ⟨hM1, by decide⟩
  have he : "!".toList ∈ m.KirejiHits := by
    rw [hhit, htext, mem_DetectKireji, hlow, ← contains_iff_occurs]
    exact ⟨hM2, by decide⟩
  have hsyll : m.LineSyllables = [2, 3, 1] := by
    rw [hs, lineLoop_ascii]
    decide
  refine ⟨m, hm, ?_, hd, he, hsyll, ?_⟩
  · rw [hfound, DetectKireji_found, ← hhit]
    intro hnil
    rw [hnil] at hd
    simp at hd
  · rw [hvalid, hsyll]
    decide

set_option maxRecDepth 100000 in
/-- C21, witness: with the initial marker list the hits are exactly "!" and
"—". -/
theorem analyze_oldPondDash_witness :
    ∃ m, (New 0).Analyze Unicode.ascii initialMarkers oldPondDash = some m
      ∧ m.HasKireji = true ∧ m.KirejiHits = ["!".toList, "—".toList]
      ∧ m.LineSyllables = [2, 3, 1] ∧ m.Valid575 = false := by
  obtain ⟨m, hm, h1, _, _, h4, h5⟩ :=
    analyze_oldPondDash Unicode.ascii initialMarkers rfl (by decide) (by decide)
  refine ⟨m, hm, h1, ?_, h4, h5⟩
  have : (New 0).Analyze Unicode.ascii initialMarkers oldPondDash
      = some (((New 0).Analyze Unicode.ascii initialMarkers oldPondDash).get (by decide)) := by
    simp
  rw [this] at hm
  simp only [Option.some.injEq] at hm
  rw [← hm]
  decide

/-! ### Distinct words -/

theorem wordLoop_unique (U : Unicode) (words : List Str) :
    ∀ st : Int × Nat × List Str, st.2.2.Nodup →
      (wordLoop U words st).2.2.Nodup
        ∧ ∀ x, x ∈ (wordLoop U words st).2.2 ↔ x ∈ st.2.2 ∨ x ∈ words.map (toLower U) := by
  induction words with
  | nil => intro st h; simp [wordLoop, h]
  | cons w ws ih =>
    rintro ⟨syll, letters, uniq⟩ hn
    simp only [wordLoop]
    by_cases hc : toLower U w ∈ uniq
    · have hc2 : uniq.contains (toLower U w) = true := by simpa using hc
      simp only [hc2, if_true]
      obtain ⟨h1, h2⟩ := ih (syll + CountSyllables U (toLower U w),
        letters + (toLower U w).length, uniq) hn
      refine ⟨h1, fun x => ?_⟩
      rw [h2]
      simp only [List.map_cons, List.mem_cons]
      constructor
      · rintro (h | h)
        · exact Or.inl h
        · exact Or.inr (Or.inr h)
      · rintro (h | h | h)
        · exact Or.inl h
        · exact Or.inl (h ▸ hc)
        · exact Or.inr h
    · have hc2 : uniq.contains (toLower U w) = false := by simpa using hc
      simp only [hc2, Bool.false_eq_true, if_false]
      have hn2 : (uniq ++ [toLower U w]).Nodup := by
        rw [List.nodup_append]
        refine ⟨hn, by simp, ?_⟩
        intro a ha hb
        simp only [List.mem_singleton] at hb
        exact hc (hb ▸ ha)
      obtain ⟨h1, h2⟩ := ih (syll + CountSyllables U (toLower U w),
        letters + (toLower U w).length, uniq ++ [toLower U w]) hn2
      refine ⟨h1, fun x => ?_⟩
      rw [h2]
      simp only [List.map_cons, List.mem_cons, List.mem_append, List.mem_singleton]
      tauto

theorem lineLoop_unique (U : Unicode) (lines : List Str) :
    ∀ t : Tally, t.uniqueWords.Nodup →
      (lineLoop U lines t).uniqueWords.Nodup
        ∧ ∀ x, x ∈ (lineLoop U lines t).uniqueWords
            ↔ x ∈ t.uniqueWords ∨ x ∈ allTokens U lines := by
  induction lines with
  | nil => intro t h; simp [lineLoop, allTokens, h]
  | cons l ls ih =>
    intro t hn
    simp only [lineLoop]
    obtain ⟨h1, h2⟩ := wordLoop_unique U (ExtractWords l) (0, t.totalLetters, t.uniqueWords) hn
    obtain ⟨h3, h4⟩ := ih
      { lineSyllables := t.lineSyllables ++
          [(wordLoop U (ExtractWords l) (0, t.totalLetters, t.uniqueWords)).1],
        lineWords := t.lineWords ++ [((ExtractWords l).length : Int)],
        totalLetters := (wordLoop U (ExtractWords l) (0, t.totalLetters, t.uniqueWords)).2.1,
        uniqueWords := (wordLoop U (ExtractWords l) (0, t.totalLetters, t.uniqueWords)).2.2 }
      h1
    refine ⟨h3, fun x => ?_⟩
    rw [h4]
    simp only [h2, allTokens, List.flatMap_cons, List.mem_append]
    tauto

theorem allTokens_length (U : Unicode) (l0 l1 l2 : Str) :
    (allTokens U [l0, l1, l2]).length
      = (ExtractWords l0).length + (ExtractWords l1).length + (ExtractWords l2).length := by
  simp [allTokens, Nat.add_assoc]

/-- C23: for every poem of 3 lines, `UniqueWords` is the number of distinct
lowercased tokens of the three lines, between 0 and `TotalWords`; the lexical
density, as an exact quotient, lies between 0 and 1 and is
`UniqueWords / TotalWords` when there is a word; with no word the lexical
density and the average word length are both 0, and with at least one word
`UniqueWords` is at least 1. -/
theorem Analyze_unique (U : Unicode) (M : Markers) (a : Analyzer) (l0 l1 l2 : Str) :
    ∃ m, a.Analyze U M ⟨[l0, l1, l2]⟩ = some m
      ∧ m.UniqueWords = ((allTokens U [l0, l1, l2]).dedup.length : Int)
      ∧ m.TotalWords = ((allTokens U [l0, l1, l2]).length : Int)
      ∧ 0 ≤ m.UniqueWords ∧ m.UniqueWords ≤ m.TotalWords
      ∧ 0 ≤ m.LexicalDensity ∧ m.LexicalDensity ≤ 1
      ∧ (m.TotalWords > 0 → m.LexicalDensity = (m.UniqueWords : ℚ) / (m.TotalWords : ℚ))
      ∧ (m.TotalWords = 0 → m.LexicalDensity = 0 ∧ m.AvgWordLen = 0)
      ∧ (m.TotalWords > 0 → 1 ≤ m.UniqueWords) := by
  obtain ⟨m, hm, _, _, hw, _, htw, hu, hd, ha, _⟩ :=
    Analyze_fields U M a ⟨[l0, l1, l2]⟩ rfl
  obtain ⟨_, h2⟩ := lineLoop_counts U [l0, l1, l2] ⟨[], [], 0, []⟩
  obtain ⟨hn, hmem⟩ := lineLoop_unique U [l0, l1, l2] ⟨[], [], 0, []⟩ List.nodup_nil
  have hlen : (lineLoop U [l0, l1, l2] ⟨[], [], 0, []⟩).uniqueWords.length
      = (allTokens U [l0, l1, l2]).dedup.length := by
    apply List.Perm.length_eq
    rw [List.perm_ext_iff_of_nodup hn (List.nodup_dedup _)]
    intro x
    rw [hmem, List.mem_dedup]
    simp
  have hu2 : m.UniqueWords = ((allTokens U [l0, l1, l2]).dedup.length : Int) := by
    rw [hu]
    exact congrArg _ hlen
  have htw2 : m.TotalWords = ((allTokens U [l0, l1, l2]).length : Int) := by
    rw [htw, hw, h2, allTokens_length]
    simp only [List.nil_append, List.map_cons, List.map_nil, List.getD_cons_zero,
      List.getD_cons_succ]
    push_cast
    rfl
  have hle : m.UniqueWords ≤ m.TotalWords := by
    rw [hu2, htw2]
    exact_mod_cast (List.dedup_sublist _).length_le
  have h0 : 0 ≤ m.UniqueWords := by rw [hu2]; exact Int.natCast_nonneg _
  have hpos : m.TotalWords > 0 → 1 ≤ m.UniqueWords := by
    intro hp
    rw [htw2] at hp
    rw [hu2]
    have hne : allTokens U [l0, l1, l2] ≠ [] := by
      intro e
      rw [e] at hp
      simp at hp
    have hne2 : (allTokens U [l0, l1, l2]).dedup ≠ [] := fun e =>
      hne ((List.dedup_eq_nil _).mp e)
    have : 0 < (allTokens U [l0, l1, l2]).dedup.length := List.length_pos.mpr hne2
    exact_mod_cast this
  refine ⟨m, hm, hu2, htw2, h0, hle, ?_, ?_, ?_, ?_, hpos⟩
  · rw [hd]
    split
    · rename_i hp
      have h1 : (0 : ℚ) ≤ (m.UniqueWords : ℚ) := by exact_mod_cast h0
      have h2 : (0 : ℚ) < (m.TotalWords : ℚ) := by exact_mod_cast hp
      exact div_nonneg h1 (le_of_lt h2)
    · exact le_refl 0
  · rw [hd]
    split
    · rename_i hp
      have h2 : (0 : ℚ) < (m.TotalWords : ℚ) := by exact_mod_cast hp
      rw [div_le_one h2]
      exact_mod_cast hle
    · exact zero_le_one
  · intro hp
    rw [hd, if_pos hp]
  · intro hz
    have hnp : ¬ m.TotalWords > 0 := by omega
    constructor
    · rw [hd, if_neg hnp]
    · rw [ha, if_neg hnp]

/-! ### Tolerance -/

/-- C25: the tolerance is state of the analyzer that only the validity
judgement reads.  `New t` has tolerance `t`, and so has the analyzer after
`SetTolerance t`; the metrics of `Analyze` carry the tolerance of the analyzer
and the value of `IsValid575` on their syllable counts; two analyzers return
metrics for the same poems, and their metrics for one poem agree on every
field other than `Valid575` and `Tolerance`.  Metrics are values: a later
`SetTolerance` returns a new analyzer state and leaves them as they are. -/
theorem tolerance_frame (U : Unicode) (M : Markers) (a : Analyzer) (h : Haiku) (t : Int) :
    (New t).GetTolerance = t
      ∧ (a.SetTolerance t).GetTolerance = t
      ∧ (∀ m, a.Analyze U M h = some m →
          m.Tolerance = a.GetTolerance ∧ m.Valid575 = a.IsValid575 m.LineSyllables)
      ∧ (∀ (b : Analyzer) (m m' : Metrics), a.Analyze U M h = some m →
          b.Analyze U M h = some m' →
          m' = { m with Valid575 := m'.Valid575, Tolerance := m'.Tolerance })
      ∧ (∀ b : Analyzer, a.Analyze U M h = none ↔ b.Analyze U M h = none) := by
  refine ⟨rfl, rfl, ?_, ?_, ?_⟩
  · intro m hm
    by_cases hv : h.IsValid = true
    · obtain ⟨m2, hm2, _, _, _, _, _, _, _, _, _, _, h1, h2⟩ := Analyze_fields U M a h hv
      rw [hm] at hm2
      simp only [Option.some.injEq] at hm2
      subst hm2
      exact ⟨h2, h1⟩
    · unfold Analyzer.Analyze at hm
      simp [hv] at hm
  · intro b m m' hm hm'
    by_cases hv : h.IsValid = true
    · unfold Analyzer.Analyze at hm hm'
      simp only [hv, Bool.not_true, Bool.false_eq_true, if_false, Option.some.injEq] at hm hm'
      subst hm
      subst hm'
      rfl
    · unfold Analyzer.Analyze at hm
      simp [hv] at hm
  · intro b
    unfold Analyzer.Analyze
    by_cases hv : h.IsValid = true
    · simp [hv]
    · simp [hv]

/-! ### Markers of the whole poem -/

theorem toLower_append (U : Unicode) (s t : Str) :
    toLower U (s ++ t) = toLower U s ++ toLower U t := by
  simp [toLower]

/-- C27: for every poem of 3 lines `l0`, `l1`, `l2`, the cutting-marker fields
of the metrics are the result of `DetectKireji` on the one string
`l0 + " " + l1 + " " + l2`, and the season words are the result of
`DetectSeasonWords` on that string; the marker flag is true exactly when there
is a hit; and when line 1 ends in "full", line 2 starts with "moon" and
"full moon" is a season word of the list, "full moon" is reported. -/
theorem Analyze_markers (U : Unicode) (M : Markers) (a : Analyzer) (l0 l1 l2 : Str) :
    ∃ m, a.Analyze U M ⟨[l0, l1, l2]⟩ = some m
      ∧ (m.HasKireji, m.KirejiHits)
        = DetectKireji U M (l0 ++ " ".toList ++ l1 ++ " ".toList ++ l2)
      ∧ m.SeasonWords = DetectSeasonWords U M (l0 ++ " ".toList ++ l1 ++ " ".toList ++ l2)
      ∧ (m.HasKireji = true ↔ m.KirejiHits ≠ [])
      ∧ (∀ x y : Str, l0 = x ++ "full".toList → l1 = "moon".toList ++ y →
          "full moon".toList ∈ M.kigo → "full moon".toList ∈ m.SeasonWords) := by
  obtain ⟨m, hm, _, _, _, _, _, _, _, _, hk, hs, _⟩ :=
    Analyze_fields U M a ⟨[l0, l1, l2]⟩ rfl
  have hj : joinSpace [l0, l1, l2] = l0 ++ " ".toList ++ l1 ++ " ".toList ++ l2 := by
    simp [joinSpace]
  have hj2 : joinSpace (Haiku.mk [l0, l1, l2]).Lines
      = l0 ++ " ".toList ++ l1 ++ " ".toList ++ l2 := hj
  rw [hj2] at hk hs
  refine ⟨m, hm, hk, hs, ?_, ?_⟩
  · have h1 : m.HasKireji
        = (DetectKireji U M (l0 ++ " ".toList ++ l1 ++ " ".toList ++ l2)).1 := by rw [← hk]
    have h2 : m.KirejiHits
        = (DetectKireji U M (l0 ++ " ".toList ++ l1 ++ " ".toList ++ l2)).2 := by rw [← hk]
    rw [h1, h2]
    exact DetectKireji_found U M _
  · intro x y hx hy hmem
    rw [hs, mem_DetectSeasonWords]
    refine ⟨hmem, ?_⟩
    have hfm : toLower U "full moon".toList = "full moon".toList := by
      rw [toLower_ascii U (by decide)]
      decide
    have hsplit : l0 ++ " ".toList ++ l1 ++ " ".toList ++ l2
        = x ++ ("full moon".toList ++ (y ++ " ".toList ++ l2)) := by
      rw [hx, hy]
      simp
    rw [hsplit, toLower_append, toLower_append, hfm]
    exact ⟨toLower U x, toLower U (y ++ " ".toList ++ l2), by simp⟩

/-! ### Tokens and syllables -/

theorem CountSyllables_pos_of_letter (U : Unicode) (w : Str)
    (h : ∃ c ∈ w, isLetter U c = true) : 1 ≤ CountSyllables U w := by
  obtain ⟨c, hc, hl⟩ := h
  have hw : w.isEmpty = false := by
    cases w with
    | nil => simp at hc
    | cons a w => rfl
  have hr : stripNonLetters U w ≠ [] := by
    intro e
    have := (stripNonLetters_eq_nil_iff U w).mp e c hc
    rw [hl] at this
    exact absurd this (by simp)
  have hre : (stripNonLetters U w).isEmpty = false := by simpa using hr
  unfold CountSyllables
  simp only [hw, Bool.false_eq_true, if_false]
  cases hlook : exceptionSyllables.lookup (toLower U w) with
  | some v => exact exceptionSyllables_pos hlook
  | none =>
    simp only [hre, Bool.false_eq_true, if_false]
    exact Nat.one_le_iff_ne_zero.mpr (clamp_ne_zero _)

theorem isLetter_toLower_wordChar (U : Unicode) {c : Char} (h : isWordChar c = true) :
    isLetter U (unicodeToLower U c) = true := by
  have hlt := isWordChar_lt h
  have hlt2 := unicodeToLower_lt U hlt
  unfold isLetter unicodeIsLetter
  rw [if_pos hlt2]
  simp only [isWordChar, isAsciiUpper, isAsciiLower, Bool.or_eq_true, Bool.and_eq_true,
    decide_eq_true_eq, beq_iff_eq] at h
  by_cases hu : isAsciiUpper c = true
  · have hu2 := hu
    simp only [isAsciiUpper, Bool.and_eq_true, decide_eq_true_eq] at hu2
    have hv : (c.toNat + 32).isValidChar := Or.inl (by omega)
    have h1 : (unicodeToLower U c).toNat = c.toNat + 32 := by
      simp only [unicodeToLower, hlt, if_true, hu]
      rw [Char.ofNat, dif_pos hv]
      rfl
    simp only [isAsciiUpper, isAsciiLower, h1, Bool.or_eq_true, Bool.and_eq_true,
      decide_eq_true_eq, beq_iff_eq]
    omega
  · have h1 : unicodeToLower U c = c := by
      simp [unicodeToLower, hlt, hu]
    rw [h1]
    simp only [isAsciiUpper, Bool.and_eq_true, decide_eq_true_eq] at hu
    simp only [isAsciiUpper, isAsciiLower, Bool.or_eq_true, Bool.and_eq_true,
      decide_eq_true_eq, beq_iff_eq]
    omega

theorem token_syllables_pos (U : Unicode) (s w : Str) (hw : w ∈ ExtractWords s) :
    1 ≤ CountSyllables U (toLower U w) := by
  obtain ⟨hne, hchars⟩ := MaximalRuns_tokens (findAllWords_runs s).1 w hw
  obtain ⟨c, cs, hcs⟩ := List.exists_cons_of_ne_nil hne
  apply CountSyllables_pos_of_letter
  refine ⟨unicodeToLower U c, ?_, isLetter_toLower_wordChar U (hchars c (by rw [hcs]; simp))⟩
  rw [hcs]
  simp [toLower]

theorem length_le_sum_of_pos (l : List Nat) (h : ∀ n ∈ l, 1 ≤ n) : l.length ≤ l.sum := by
  induction l with
  | nil => simp
  | cons a l ih =>
    have h1 := h a (List.mem_cons_self a l)
    have h2 := ih (fun n hn => h n (List.mem_cons_of_mem a hn))
    simp only [List.length_cons, List.sum_cons]
    omega

theorem CountLineSyllables_ge (U : Unicode) (l : Str) :
    (ExtractWords l).length ≤ CountLineSyllables U l := by
  unfold CountLineSyllables
  have := length_le_sum_of_pos ((ExtractWords l).map (fun w => CountSyllables U (toLower U w)))
    (by
      intro n hn
      obtain ⟨w, hw, rfl⟩ := List.mem_map.mp hn
      exact token_syllables_pos U l w hw)
  simpa using this

theorem CountLineSyllables_eq_zero_iff (U : Unicode) (l : Str) :
    CountLineSyllables U l = 0 ↔ (ExtractWords l).length = 0 := by
  constructor
  · intro h
    have := CountLineSyllables_ge U l
    omega
  · intro h
    have : ExtractWords l = [] := List.length_eq_zero.mp h
    simp [CountLineSyllables, this]

/-- C28: every token that `ExtractWords` produces counts for at least one
syllable once lowercased.  Hence for every poem of 3 lines each line has at
least as many syllables as words, the total of syllables is at least the total
of words, and a line has 0 syllables exactly when it has 0 words. -/
theorem token_syllables (U : Unicode) (M : Markers) (a : Analyzer) (l0 l1 l2 : Str) :
    (∀ s w : Str, w ∈ ExtractWords s → 1 ≤ CountSyllables U (toLower U w))
      ∧ ∃ m, a.Analyze U M ⟨[l0, l1, l2]⟩ = some m
        ∧ (∀ i, i < 3 → m.LineWords.getD i 0 ≤ m.LineSyllables.getD i 0)
        ∧ m.TotalWords ≤ m.TotalSyllables
        ∧ (∀ i, i < 3 → (m.LineSyllables.getD i 0 = 0 ↔ m.LineWords.getD i 0 = 0)) := by
  refine ⟨token_syllables_pos U, ?_⟩
  obtain ⟨m, hm, _, hs, hw, hts, htw, _⟩ := Analyze_fields U M a ⟨[l0, l1, l2]⟩ rfl
  obtain ⟨h1, h2⟩ := lineLoop_counts U [l0, l1, l2] ⟨[], [], 0, []⟩
  have hs2 : m.LineSyllables = [(CountLineSyllables U l0 : Int),
      (CountLineSyllables U l1 : Int), (CountLineSyllables U l2 : Int)] := by
    rw [hs, h1]; rfl
  have hw2 : m.LineWords = [((ExtractWords l0).length : Int),
      ((ExtractWords l1).length : Int), ((ExtractWords l2).length : Int)] := by
    rw [hw, h2]; rfl
  have g0 := CountLineSyllables_ge U l0
  have g1 := CountLineSyllables_ge U l1
  have g2 := CountLineSyllables_ge U l2
  have z0 := CountLineSyllables_eq_zero_iff U l0
  have z1 := CountLineSyllables_eq_zero_iff U l1
  have z2 := CountLineSyllables_eq_zero_iff U l2
  refine ⟨m, hm, ?_, ?_, ?_⟩
  · intro i hi
    rw [hs2, hw2]
    interval_cases i <;> simp only [List.getD_cons_zero, List.getD_cons_succ] <;> omega
  · rw [hts, htw, hs2, hw2]
    simp only [List.getD_cons_zero, List.getD_cons_succ]
    omega
  · intro i hi
    rw [hs2, hw2]
    interval_cases i <;> simp only [List.getD_cons_zero, List.getD_cons_succ] <;> omega

/-! ### Apostrophes in tokens -/

theorem count_flatten_ExtractWords (s : Str) (c : Char) (hc : isWordChar c = true) :
    (ExtractWords s).flatten.count c = s.count c := by
  have h : (ExtractWords s).flatten = s.filter isWordChar := by
    simpa using findAllWords_flatten s []
  rw [h, List.count_filter hc]

/-- C24, as amended: every token that `ExtractWords` produces is a non-empty
string of ASCII letters and apostrophes; an apostrophe is kept wherever it
stands in the input, so that the tokens hold as many apostrophes as the input
does. -/
theorem ExtractWords_tokens (s : Str) :
    (∀ t ∈ ExtractWords s, t ≠ []
        ∧ ∀ c ∈ t, isAsciiUpper c = true ∨ isAsciiLower c = true ∨ c = Char.ofNat 39)
      ∧ (ExtractWords s).flatten.count (Char.ofNat 39) = s.count (Char.ofNat 39) := by
  refine ⟨?_, count_flatten_ExtractWords s _ (by decide)⟩
  intro t ht
  obtain ⟨hne, hchars⟩ := MaximalRuns_tokens (findAllWords_runs s).1 t ht
  refine ⟨hne, fun c hc => ?_⟩
  have := hchars c hc
  simp only [isWordChar, Bool.or_eq_true, beq_iff_eq] at this
  rcases this with (h | h) | h
  · exact Or.inl h
  · exact Or.inr (Or.inl h)
  · exact Or.inr (Or.inr (char_eq_of_toNat_eq (by rw [h]; rfl)))

/-- C24, counterexample: the text "'tis the dogs' '" yields the tokens "'tis",
"the", "dogs'" and "'": one begins with an apostrophe, one ends with one and
one holds no letter. -/
theorem ExtractWords_apostrophes :
    ExtractWords "'tis the dogs' '".toList
      = ["'tis".toList, "the".toList, "dogs'".toList, "'".toList] := by decide

/-! ### The two settings of the flag -/

set_option maxRecDepth 100000 in
/-- C29: enabling autosplit is a conservative extension.  When
`ParseFromString` succeeds with autosplit disabled it succeeds with autosplit
enabled and returns the same poem; the two settings differ only on an input
with fewer than 3 non-blank lines, which the disabled setting rejects; and
they do differ on some input: "a / b / c" is rejected by the one and parsed by
the other. -/
theorem autosplit_conservative (text : Str) :
    (∀ hk : Haiku, (Parser.mk false).ParseFromString text = Except.ok hk →
        (Parser.mk true).ParseFromString text = Except.ok hk)
      ∧ ((Parser.mk false).ParseFromString text ≠ (Parser.mk true).ParseFromString text →
          (trimmedLines text).length < 3
            ∧ ∃ e, (Parser.mk false).ParseFromString text = Except.error e)
      ∧ ((trimmedLines text).length < 3 →
          ∃ e, (Parser.mk false).ParseFromString text = Except.error e)
      ∧ (3 ≤ (trimmedLines text).length →
          (Parser.mk false).prepareLines text = (Parser.mk true).prepareLines text)
      ∧ (∃ e, (Parser.mk false).ParseFromString "a / b / c".toList = Except.error e)
      ∧ (Parser.mk true).ParseFromString "a / b / c".toList
        = Except.ok (NewHaiku ["a".toList, "b".toList, "c".toList]) := by
  have hT := trimmedLines_trimSpace text
  have hraw : (trimmedLines text).length < 3 →
      ∃ e, (Parser.mk false).ParseFromString text = Except.error e := by
    intro h
    exact ⟨_, ParseFromString_of_raw text (by rw [hT]; exact h)⟩
  have hsame : 3 ≤ (trimmedLines text).length →
      (Parser.mk false).ParseFromString text = (Parser.mk true).ParseFromString text := by
    intro h
    rw [ParseFromString_of_three _ text (by rw [hT]; exact h),
      ParseFromString_of_three _ text (by rw [hT]; exact h)]
  refine ⟨?_, ?_, hraw, ?_, ⟨_, (by decide :
    (Parser.mk false).ParseFromString "a / b / c".toList
      = Except.error "haiku must have exactly 3 lines, got 1 (source=raw)".toList)⟩,
    by decide⟩
  · intro hk hok
    by_cases h3 : 3 ≤ (trimmedLines text).length
    · rw [← hsame h3]
      exact hok
    · obtain ⟨e, he⟩ := hraw (by omega)
      rw [he] at hok
      exact absurd hok (by simp)
  · intro hne
    by_cases h3 : 3 ≤ (trimmedLines text).length
    · exact absurd (hsame h3) hne
    · exact ⟨by omega, hraw (by omega)⟩
  · intro h3
    rw [prepareLines_of_three _ text (by rw [hT]; exact h3),
      prepareLines_of_three _ text (by rw [hT]; exact h3)]

/-! ### Round trip of clean lines -/

theorem roundtrip_of_clean (p : Parser) (l0 l1 l2 : Str) (h0 : IsCleanLine l0)
    (h1 : IsCleanLine l1) (h2 : IsCleanLine l2) :
    p.ParseFromString (NewHaiku [l0, l1, l2]).Text = Except.ok (NewHaiku [l0, l1, l2]) := by
  have hT : trimmedLines (trimSpace (NewHaiku [l0, l1, l2]).Text) = [l0, l1, l2] := by
    rw [trimmedLines_trimSpace]
    show trimmedLines (textLoop [l0, l1, l2] true []) = _
    rw [textLoop_three]
    exact trimmedLines_joined l0 l1 l2 h0 h1 h2
  have hq := ParseFromString_of_three p (NewHaiku [l0, l1, l2]).Text
    (by rw [hT]; exact Nat.le_refl 3)
  rw [hT] at hq
  exact hq

theorem splitLoop_no_newline (s : Str) :
    ∀ cur : Str, Char.ofNat 10 ∉ cur →
      ∀ l ∈ splitLoop [Char.ofNat 10] s 0 cur, Char.ofNat 10 ∉ l := by
  induction s with
  | nil =>
    intro cur hcur l hl
    simp only [splitLoop, List.mem_singleton] at hl
    rw [hl]
    exact hcur
  | cons c cs ih =>
    intro cur hcur l hl
    rw [splitLoop_newline_cons] at hl
    split at hl
    · rcases List.mem_cons.mp hl with h | h
      · rw [h]; exact hcur
      · exact ih [] (by simp) l h
    · rename_i hc
      refine ih (cur ++ [c]) ?_ l hl
      simp only [List.mem_append, List.mem_singleton, not_or]
      exact ⟨hcur, fun e => hc e.symm⟩

theorem trimmedLines_clean (s : Str) : ∀ l ∈ trimmedLines s, IsCleanLine l := by
  intro l hl
  rw [trimmedLines_eq, List.mem_filter, List.mem_map] at hl
  obtain ⟨⟨x, hx, hxl⟩, hne⟩ := hl
  subst hxl
  refine ⟨by simpa using hne, ?_, trimSpace_head x, trimSpace_last x⟩
  intro hmem
  obtain ⟨a, b, hab⟩ := trimSpace_occurs x
  have hnx : Char.ofNat 10 ∉ x := splitLoop_no_newline s [] (by simp) x hx
  apply hnx
  rw [hab]
  simp [hmem]

/-- C30: for every three lines that are each non-empty, without a newline and
without white space at their start or end, `ParseFromString` applied to the
text of the poem of those lines succeeds, for either value of the flag, and
returns the same three lines.  In particular the lines of every poem that
`ParseFromString` returns with autosplit disabled are such lines, and parsing
the text of that poem returns the poem again. -/
theorem roundtrip_clean_lines :
    (∀ (p : Parser) (l0 l1 l2 : Str), IsCleanLine l0 → IsCleanLine l1 → IsCleanLine l2 →
        p.ParseFromString (NewHaiku [l0, l1, l2]).Text = Except.ok (NewHaiku [l0, l1, l2]))
      ∧ (∀ (text : Str) (h : Haiku), (Parser.mk false).ParseFromString text = Except.ok h →
          (∀ l ∈ h.Lines, IsCleanLine l)
            ∧ ∀ p : Parser, p.ParseFromString h.Text = Except.ok h) := by
  refine ⟨roundtrip_of_clean, ?_⟩
  intro text h hok
  have h3 : 3 ≤ (trimmedLines (trimSpace text)).length := by
    by_contra hlt
    rw [ParseFromString_of_raw text (by omega)] at hok
    exact absurd hok (by simp)
  rw [ParseFromString_of_three _ text h3] at hok
  simp only [Except.ok.injEq] at hok
  have hclean : ∀ l ∈ h.Lines, IsCleanLine l := by
    intro l hl
    rw [← hok] at hl
    exact trimmedLines_clean _ l (List.mem_of_mem_take hl)
  have hlen : h.Lines.length = 3 := by
    rw [← hok]
    simp only [NewHaiku, List.length_take]
    omega
  refine ⟨hclean, fun p => ?_⟩
  obtain ⟨lines⟩ := h
  match lines, hlen, hclean with
  | [l0, l1, l2], _, hclean =>
    exact roundtrip_of_clean p l0 l1 l2 (hclean l0 (by simp)) (hclean l1 (by simp))
      (hclean l2 (by simp))

/-! ## The syllable heuristic -/

theorem countVowelGroups_runs (u : Str) :
    ∀ (prev : Bool) (n : Nat),
      n + vowelRuns u
        = countVowelGroups u prev n + (if prev && startsWithVowel u then 1 else 0) := by
  induction u with
  | nil => intro prev n; simp [countVowelGroups, vowelRuns, startsWithVowel]
  | cons c rest ih =>
    intro prev n
    have h := ih (vowels c) (if vowels c && !prev then n + 1 else n)
    have e : startsWithVowel (c :: rest) = vowels c := rfl
    simp only [countVowelGroups, vowelRuns, e]
    cases hv : vowels c <;> cases hp : prev <;> cases hs : startsWithVowel rest <;>
      simp [hv, hp, hs] at h ⊢ <;> omega

theorem countVowelGroups_eq (u : Str) : countVowelGroups u false 0 = vowelRuns u := by
  have := countVowelGroups_runs u false 0
  simpa using this.symm

theorem hasSuffix_iff (u s : Str) : hasSuffix u s = true ↔ s <:+ u := by
  unfold hasSuffix
  rw [List.isPrefixOf_iff_prefix, List.reverse_prefix]

theorem vowels_lt {c : Char} (h : vowels c = true) : c.toNat < 128 := by
  have hmem : c ∈ "aeiouy".toList := by simpa [vowels] using h
  have hall : ∀ d ∈ "aeiouy".toList, d.toNat < 128 := by decide
  exact hall c hmem

theorem utf8EncodeRune_last (x : Char) :
    ∃ init b, utf8EncodeRune x = init ++ [b]
      ∧ (x.toNat < 128 → b = x.toNat) ∧ (128 ≤ x.toNat → 128 ≤ b ∧ b < 192) := by
  unfold utf8EncodeRune
  split
  · exact ⟨[], x.toNat, rfl, fun _ => rfl, fun h => by omega⟩
  · split
    · exact ⟨[0xC0 + x.toNat / 64], 0x80 + x.toNat % 64, rfl, fun h => by omega,
        fun _ => by omega⟩
    · split
      · exact ⟨[0xE0 + x.toNat / 4096, 0x80 + (x.toNat / 64) % 64], 0x80 + x.toNat % 64, rfl,
          fun h => by omega, fun _ => by omega⟩
      · exact ⟨[0xF0 + x.toNat / 262144, 0x80 + (x.toNat / 4096) % 64,
          0x80 + (x.toNat / 64) % 64], 0x80 + x.toNat % 64, rfl, fun h => by omega,
          fun _ => by omega⟩

theorem vowels_last_byte (x : Char) (b : Nat) (h1 : x.toNat < 128 → b = x.toNat)
    (h2 : 128 ≤ x.toNat → 128 ≤ b ∧ b < 192) : vowels (Char.ofNat b) = vowels x := by
  by_cases hx : x.toNat < 128
  · rw [h1 hx, Char.ofNat_toNat]
  · obtain ⟨hb1, hb2⟩ := h2 (by omega)
    have hv : b.isValidChar := Or.inl (by omega)
    have hb : (Char.ofNat b).toNat = b := by
      rw [Char.ofNat, dif_pos hv]
      rfl
    have e1 : vowels (Char.ofNat b) = false := by
      by_contra hne
      have := vowels_lt (by simpa using hne)
      omega
    have e2 : vowels x = false := by
      by_contra hne
      have := vowels_lt (by simpa using hne)
      omega
    rw [e1, e2]

theorem utf8Bytes_append (s t : Str) : utf8Bytes (s ++ t) = utf8Bytes s ++ utf8Bytes t := by
  simp [utf8Bytes]

/-- The byte that `CountSyllables` reads before a final "le" decides the same
as the third-from-last character. -/
theorem le_byte (pre : Str) (x : Char) :
    (utf8Bytes (pre ++ [x] ++ "le".toList)).length > 2
      ∧ vowels (Char.ofNat ((utf8Bytes (pre ++ [x] ++ "le".toList)).getD
          ((utf8Bytes (pre ++ [x] ++ "le".toList)).length - 3) 0)) = vowels x := by
  obtain ⟨init, b, hb, h1, h2⟩ := utf8EncodeRune_last x
  have hle : utf8Bytes "le".toList = [108, 101] := by decide
  have hx : utf8Bytes [x] = init ++ [b] := by simp [utf8Bytes, hb]
  have hbytes : utf8Bytes (pre ++ [x] ++ "le".toList)
      = (utf8Bytes pre ++ init) ++ ([b] ++ [108, 101]) := by
    rw [utf8Bytes_append, utf8Bytes_append, hx, hle]
    simp
  rw [hbytes]
  have hlen : ((utf8Bytes pre ++ init) ++ ([b] ++ [108, 101])).length
      = (utf8Bytes pre ++ init).length + 3 := by
    simp only [List.length_append, List.length_cons, List.length_nil]
  refine ⟨by rw [hlen]; omega, ?_⟩
  rw [hlen, Nat.add_sub_cancel, List.getD_append_right _ _ _ _ (Nat.le_refl _), Nat.sub_self]
  exact vowels_last_byte x b h1 h2

theorem utf8Bytes_le : (utf8Bytes "le".toList).length = 2 := by decide

theorem suffix_le_cases {u : Str} (h : "le".toList <:+ u) :
    u = "le".toList ∨ ∃ pre x, u = pre ++ [x] ++ "le".toList := by
  obtain ⟨t, ht⟩ := h
  rcases List.eq_nil_or_concat t with h0 | ⟨pre, x, hx⟩
  · left
    rw [← ht, h0]
    rfl
  · right
    refine ⟨pre, x, ?_⟩
    rw [← ht, hx, List.concat_eq_append]

/-- The test of the source on the bytes of the string is the condition on its
characters. -/
theorem le_test_iff (u : Str) :
    (hasSuffix u "le".toList && decide ((utf8Bytes u).length > 2)
        && !vowels (Char.ofNat ((utf8Bytes u).getD ((utf8Bytes u).length - 3) 0))) = true
      ↔ ConsonantLe u := by
  unfold ConsonantLe
  by_cases hs : "le".toList <:+ u
  · have hs2 : hasSuffix u "le".toList = true := (hasSuffix_iff _ _).mpr hs
    rcases suffix_le_cases hs with h | ⟨pre, x, h⟩
    · subst h
      simp only [utf8Bytes_le]
      decide
    · subst h
      obtain ⟨h1, h2⟩ := le_byte pre x
      have hrev : (pre ++ [x] ++ "le".toList).reverse[2]? = some x := by
        simp
      have hlen : 2 < (pre ++ [x] ++ "le".toList).length := by
        simp
      simp only [hs2, h1, h2, decide_True, Bool.true_and, Bool.not_eq_true', hs, hlen, hrev,
        Option.some.injEq, exists_eq_left', true_and]
  · have hs2 : hasSuffix u "le".toList = false := by
      rw [← Bool.not_eq_true, hasSuffix_iff]
      exact hs
    rw [hs2]
    simp only [Bool.false_and, Bool.false_eq_true, false_iff]
    rintro ⟨h, _⟩
    exact hs h

theorem silentE_test_iff (u : Str) :
    (hasSuffix u "e".toList && !hasSuffix u "le".toList
        && decide (countVowelGroups u false 0 > 1)) = true ↔ SilentE u := by
  unfold SilentE
  rw [countVowelGroups_eq]
  simp only [Bool.and_eq_true, Bool.not_eq_true', decide_eq_true_eq, hasSuffix_iff,
    ← Bool.not_eq_true, gt_iff_lt, and_assoc]

theorem nested_if (a c : Bool) (x y : Nat) :
    (if a = true then (if c = true then x else y) else y)
      = if (a && c) = true then x else y := by
  cases a <;> cases c <;> rfl

/-- The value of `CountSyllables` on a word outside the exception table that
keeps a letter: the count of vowel groups, the two adjustments, the clamp. -/
theorem CountSyllables_heuristic (U : Unicode) (w : Str)
    (hw : exceptionSyllables.lookup (toLower U w) = none)
    (hne : strippedLower U w ≠ []) :
    CountSyllables U w
      = max 1
          ((if (hasSuffix (strippedLower U w) "e".toList
                && !hasSuffix (strippedLower U w) "le".toList
                && decide (countVowelGroups (strippedLower U w) false 0 > 1)) = true
            then countVowelGroups (strippedLower U w) false 0 - 1
            else countVowelGroups (strippedLower U w) false 0)
          + (if (hasSuffix (strippedLower U w) "le".toList
                && decide ((utf8Bytes (strippedLower U w)).length > 2)
                && !vowels (Char.ofNat ((utf8Bytes (strippedLower U w)).getD
                    ((utf8Bytes (strippedLower U w)).length - 3) 0))) = true
            then 1 else 0)) := by
  have hs : stripNonLetters U w ≠ [] := by
    intro e
    apply hne
    simp [strippedLower, e, toLower]
  have hw0 : w.isEmpty = false := by
    cases w with
    | nil => exact absurd rfl hs
    | cons a w => rfl
  have hse : (stripNonLetters U w).isEmpty = false := by simpa using hs
  unfold CountSyllables
  simp only [hw0, Bool.false_eq_true, if_false, hw, hse]
  rw [nested_if]
  unfold strippedLower
  split_ifs <;> omega

/-- C26: for every word whose lowercase form is not in the exception table,
let `u` be the word stripped at both ends of the characters that are neither
letters nor apostrophes and lowercased, and `V` the number of maximal runs of
vowels of `u`.  `CountSyllables` returns 0 when `u` is empty; `max 1 (V - 1)`
when `u` ends in "e", not in "le", and `V > 1`; `max 1 (V + 1)` when `u` ends
in "le", has more than 2 characters and its third-from-last character is no
vowel; and `max 1 V` otherwise.  The two adjustments never apply together. -/
theorem CountSyllables_formula (U : Unicode) (w : Str)
    (hw : exceptionSyllables.lookup (toLower U w) = none) :
    (strippedLower U w = [] → CountSyllables U w = 0)
      ∧ (strippedLower U w ≠ [] → SilentE (strippedLower U w) →
          CountSyllables U w = max 1 (vowelRuns (strippedLower U w) - 1))
      ∧ (strippedLower U w ≠ [] → ConsonantLe (strippedLower U w) →
          CountSyllables U w = max 1 (vowelRuns (strippedLower U w) + 1))
      ∧ (strippedLower U w ≠ [] → ¬ SilentE (strippedLower U w) →
          ¬ ConsonantLe (strippedLower U w) →
          CountSyllables U w = max 1 (vowelRuns (strippedLower U w)))
      ∧ ¬ (SilentE (strippedLower U w) ∧ ConsonantLe (strippedLower U w)) := by
  have hexcl : ¬ (SilentE (strippedLower U w) ∧ ConsonantLe (strippedLower U w)) := by
    rintro ⟨⟨_, h1, _⟩, ⟨h2, _⟩⟩
    exact h1 h2
  have hS := silentE_test_iff (strippedLower U w)
  have hL := le_test_iff (strippedLower U w)
  refine ⟨?_, ?_, ?_, ?_, hexcl⟩
  · intro hu
    have hs : stripNonLetters U w = [] := by
      simpa [strippedLower, toLower] using hu
    unfold CountSyllables
    by_cases hw0 : w.isEmpty = true
    · simp [hw0]
    · simp [hw0, hw, hs]
  · intro hne hSE
    have hnL : ¬ ConsonantLe (strippedLower U w) := fun h => hexcl ⟨hSE, h⟩
    rw [CountSyllables_heuristic U w hw hne, if_pos (hS.mpr hSE),
      if_neg (fun h => hnL (hL.mp h)), countVowelGroups_eq]
    rfl
  · intro hne hCL
    have hnS : ¬ SilentE (strippedLower U w) := fun h => hexcl ⟨h, hCL⟩
    rw [CountSyllables_heuristic U w hw hne, if_neg (fun h => hnS (hS.mp h)),
      if_pos (hL.mpr hCL), countVowelGroups_eq]
  · intro hne hnS hnL
    rw [CountSyllables_heuristic U w hw hne, if_neg (fun h => hnS (hS.mp h)),
      if_neg (fun h => hnL (hL.mp h)), countVowelGroups_eq]
    rfl

/-- The examples of the heuristic: "make" counts 1, "hello" 2, "beautiful" 3,
"through" 1 and "bottle" 3, whatever the tables above ASCII are. -/
theorem CountSyllables_examples (U : Unicode) :
    CountSyllables U "make".toList = 1 ∧ CountSyllables U "hello".toList = 2
      ∧ CountSyllables U "beautiful".toList = 3 ∧ CountSyllables U "through".toList = 1
      ∧ CountSyllables U "bottle".toList = 3 := by
  rw [CountSyllables_ascii U (by decide), CountSyllables_ascii U (by decide),
    CountSyllables_ascii U (by decide), CountSyllables_ascii U (by decide),
    CountSyllables_ascii U (by decide)]
  decide

/-- C26, witness: "bottle" ends in "le" after the consonant `t` and has 2 runs
of vowels, so it counts 3; "make" ends in a silent "e" and has 2 runs, so it
counts 1. -/
theorem CountSyllables_formula_witness :
    CountSyllables Unicode.ascii "bottle".toList = 3
      ∧ CountSyllables Unicode.ascii "make".toList = 1 :=
  ⟨((CountSyllables_formula Unicode.ascii "bottle".toList (by decide)).2.2.1 (by decide)
      ⟨⟨"bott".toList, rfl⟩, by decide, Char.ofNat 116, by decide, by decide⟩).trans
      (by decide),
   ((CountSyllables_formula Unicode.ascii "make".toList (by decide)).2.1 (by decide)
      ⟨⟨"mak".toList, rfl⟩, by decide, by decide⟩).trans (by decide)⟩

/-! ## Additivity over a separator -/

theorem findAllWords_separator {sep : Char} (hsep : isWordChar sep = false) (x y : Str) :
    ∀ cur : Str, findAllWords (x ++ sep :: y) cur = findAllWords x cur ++ findAllWords y [] := by
  induction x with
  | nil =>
    intro cur
    cases cur with
    | nil => simp [findAllWords, hsep]
    | cons c cs => simp [findAllWords, hsep]
  | cons c x ih =>
    intro cur
    by_cases hc : isWordChar c = true
    · rw [List.cons_append]
      simp only [findAllWords, hc, if_true]
      exact ih _
    · have hc2 : isWordChar c = false := by simpa using hc
      cases cur with
      | nil => simp [findAllWords, hc2, ih]
      | cons d ds => simp [findAllWords, hc2, ih]

theorem ExtractWords_separator {sep : Char} (hsep : isWordChar sep = false) (x y : Str) :
    ExtractWords (x ++ sep :: y) = ExtractWords x ++ ExtractWords y :=
  findAllWords_separator hsep x y []

theorem CountLineSyllables_separator (U : Unicode) {sep : Char}
    (hsep : isWordChar sep = false) (x y : Str) :
    CountLineSyllables U (x ++ sep :: y) = CountLineSyllables U x + CountLineSyllables U y := by
  simp [CountLineSyllables, ExtractWords_separator hsep]

/-- C31: `CountLineSyllables` is additive over two texts joined by a separator
character.  The tokens of `x + " " + y` are the tokens of `x` followed by those
of `y`, for the blank as for every character that is neither an ASCII letter
nor an apostrophe, so the syllables of the joined text are the sum of the
syllables of the two.  Hence for every poem of 3 lines `TotalSyllables` is
`CountLineSyllables` of the lines joined by single blanks, and `TotalWords` the
number of tokens of that text. -/
theorem CountLineSyllables_additive (U : Unicode) (M : Markers) (a : Analyzer)
    (x y l0 l1 l2 : Str) :
    ExtractWords (x ++ " ".toList ++ y) = ExtractWords x ++ ExtractWords y
      ∧ CountLineSyllables U (x ++ " ".toList ++ y)
        = CountLineSyllables U x + CountLineSyllables U y
      ∧ (∀ sep : Char, isWordChar sep = false →
          ExtractWords (x ++ sep :: y) = ExtractWords x ++ ExtractWords y
            ∧ CountLineSyllables U (x ++ sep :: y)
              = CountLineSyllables U x + CountLineSyllables U y)
      ∧ ∃ m, a.Analyze U M ⟨[l0, l1, l2]⟩ = some m
        ∧ m.TotalSyllables
          = ((CountLineSyllables U (l0 ++ " ".toList ++ l1 ++ " ".toList ++ l2) : Nat) : Int)
        ∧ m.TotalWords
          = (((ExtractWords (l0 ++ " ".toList ++ l1 ++ " ".toList ++ l2)).length : Nat) : Int)
        ∧ joinSpace [l0, l1, l2] = l0 ++ " ".toList ++ l1 ++ " ".toList ++ l2 := by
  have hsp : isWordChar (Char.ofNat 32) = false := by decide
  have hx : ∀ u v : Str, u ++ " ".toList ++ v = u ++ Char.ofNat 32 :: v := by
    intro u v
    simp
  obtain ⟨m, hm, _, hs, hw, hts, htw, _⟩ := Analyze_fields U M a ⟨[l0, l1, l2]⟩ rfl
  obtain ⟨h1, h2⟩ := lineLoop_counts U [l0, l1, l2] ⟨[], [], 0, []⟩
  have hs2 : m.LineSyllables = [(CountLineSyllables U l0 : Int),
      (CountLineSyllables U l1 : Int), (CountLineSyllables U l2 : Int)] := by
    rw [hs, h1]; rfl
  have hw2 : m.LineWords = [((ExtractWords l0).length : Int),
      ((ExtractWords l1).length : Int), ((ExtractWords l2).length : Int)] := by
    rw [hw, h2]; rfl
  refine ⟨?_, ?_, fun sep hsep => ⟨ExtractWords_separator hsep x y,
    CountLineSyllables_separator U hsep x y⟩, m, hm, ?_, ?_, ?_⟩
  · rw [hx]
    exact ExtractWords_separator hsp x y
  · rw [hx]
    exact CountLineSyllables_separator U hsp x y
  · rw [hts, hs2, hx, CountLineSyllables_separator U hsp, hx,
      CountLineSyllables_separator U hsp]
    simp only [List.getD_cons_zero, List.getD_cons_succ]
    push_cast
    rfl
  · rw [htw, hw2, hx, ExtractWords_separator hsp, hx, ExtractWords_separator hsp]
    simp only [List.getD_cons_zero, List.getD_cons_succ, List.length_append]
    push_cast
    rfl
  · simp [joinSpace]

end Haikugo
